import Mathlib

/-!
Shallow embedding of the cfsbk workout-ETL core (cfa_etl package) in Lean 4,
with theorems settling the frozen claims about its specification.

Text is modelled as lists of characters (`List Char`); the Python string
operations and the concrete regular expressions used by the source are
embedded as executable functions over `List Char`.  ASCII semantics are used
for case folding and character classes, matching CPython behaviour on the
ASCII inputs this pipeline manipulates.
-/

namespace Cfa

/-- Python whitespace class (ASCII part of the regex class backslash-s). -/
def isSpaceChar (c : Char) : Bool :=
  c = ' ' || c = '\t' || c = '\n' || c = '\x0d' || c = '\x0b' || c = '\x0c'

/-- Python word-character class (ASCII part of the regex class backslash-w). -/
def isWordChar (c : Char) : Bool :=
  c.isAlphanum || c = '_'

/-- Characters of a string literal, for writing pattern constants. -/
def strLit (s : String) : List Char :=
  s.data

/-- Lowercase a character sequence (Python str.lower on ASCII). -/
def lowerStr (l : List Char) : List Char :=
  l.map Char.toLower

/-- Substring test: does the needle occur contiguously in the haystack? -/
def containsSub (hay nd : List Char) : Bool :=
  (List.range (hay.length + 1)).any (fun i => nd.isPrefixOf (hay.drop i))

/-- Substring test lifted to strings (the Python infix in-operator on str). -/
def strContains (s t : String) : Bool :=
  containsSub s.data t.data

/-- Index of the first occurrence of a substring, if any (Python str.find). -/
def findSubIdx (hay nd : List Char) : Option Nat :=
  (List.range (hay.length + 1)).find? (fun i => nd.isPrefixOf (hay.drop i))

/-- Strip characters satisfying a predicate from both ends. -/
def stripBoth (p : Char → Bool) (l : List Char) : List Char :=
  ((l.dropWhile p).reverse.dropWhile p).reverse

/-- Python str.strip with no argument: trim whitespace at both ends. -/
def pyStrip (l : List Char) : List Char :=
  stripBoth isSpaceChar l

/-- Split a character sequence at newline characters (Python str.split on a
newline separator: empty pieces are kept, and the empty input yields one
empty piece). -/
def splitOnNl : List Char → List (List Char)
  | [] => [[]]
  | c :: cs =>
    match splitOnNl cs with
    | [] => [[]]
    | h :: t => if c = '\n' then [] :: h :: t else (c :: h) :: t

/-- Helper for `pySplitWs`: accumulate the current word (reversed). -/
def pySplitWsAux : List Char → List Char → List (List Char)
  | [], acc => if acc.isEmpty then [] else [acc.reverse]
  | c :: cs, acc =>
    if isSpaceChar c then
      if acc.isEmpty then pySplitWsAux cs [] else acc.reverse :: pySplitWsAux cs []
    else pySplitWsAux cs (c :: acc)

/-- Python str.split with no argument: split on whitespace runs, dropping
empty pieces. -/
def pySplitWs (l : List Char) : List (List Char) :=
  pySplitWsAux l []

/-- Consume a literal pattern case-insensitively; the pattern is given in
lowercase.  Returns the remaining input on success. -/
def eatCI : List Char → List Char → Option (List Char)
  | [], l => some l
  | _ :: _, [] => none
  | p :: ps, c :: cs => if c.toLower = p then eatCI ps cs else none

/-- Consume at least one whitespace character, greedily (the regex piece
backslash-s followed by plus). -/
def eatSpaces1 : List Char → Option (List Char)
  | [] => none
  | c :: cs => if isSpaceChar c then some (cs.dropWhile isSpaceChar) else none

/-- Consume at least one digit, greedily (the regex piece backslash-d
followed by plus). -/
def eatDigits1 : List Char → Option (List Char)
  | [] => none
  | c :: cs => if c.isDigit then some (cs.dropWhile Char.isDigit) else none

/-- Consume an optional literal dot (the regex piece dot with question mark,
on an escaped dot). -/
def eatOptDot : List Char → List Char
  | '.' :: cs => cs
  | l => l

/-- Word boundary before the current position, given the previous character
(none at the start of the string). -/
def prevBoundary : Option Char → Bool
  | none => true
  | some c => !(isWordChar c)

/-- Word boundary test at the head of the remaining input. -/
def nonWordHead : List Char → Bool
  | [] => true
  | c :: _ => !(isWordChar c)

/-- Left-to-right scan-and-replace engine modelling Python re.sub with a
replacement of one newline character.  The matcher receives the previous
character (for word boundaries) and the remaining input, and returns the
input left over after a match starting at the current position.  Scanning
resumes after the replaced region, exactly as re.sub does. -/
def regexSubFuel (tryM : Option Char → List Char → Option (List Char)) :
    Nat → Option Char → List Char → List Char
  | 0, _, l => l
  | _ + 1, _, [] => []
  | fuel + 1, prev, c :: cs =>
    match tryM prev (c :: cs) with
    | some rest =>
      if rest.length < cs.length + 1 then '\n' :: regexSubFuel tryM fuel (some '\n') rest
      else c :: regexSubFuel tryM fuel (some c) cs
    | none => c :: regexSubFuel tryM fuel (some c) cs

/-- Run the scan-and-replace engine with enough fuel for the whole input
(every replacement consumes at least one character, so the input length
bounds the number of steps). -/
def regexSub (tryM : Option Char → List Char → Option (List Char))
    (prev : Option Char) (l : List Char) : List Char :=
  regexSubFuel tryM l.length prev l

/-- Matcher for a run of at least three copies of a target character,
with surrounding whitespace absorbed (the source regex replaces long
underscore or hyphen runs by a line break). -/
def tryRunSub (target : Char) (_prev : Option Char) (l : List Char) :
    Option (List Char) :=
  let r1 := l.dropWhile isSpaceChar
  let us := r1.takeWhile (· = target)
  if us.length ≥ 3 then some ((r1.drop us.length).dropWhile isSpaceChar) else none

/-- Matcher for the case-insensitive phrase: word boundary, "post",
whitespace, one of "loads"/"load"/"work", whitespace, "to", whitespace,
"comments", optional dot. -/
def tryPostLoadsWork (prev : Option Char) (l : List Char) : Option (List Char) :=
  if !(prevBoundary prev) then none
  else
    (eatCI (strLit "post") l).bind fun r1 =>
      (eatSpaces1 r1).bind fun r2 =>
        let tail : List Char → Option (List Char) := fun r =>
          (eatSpaces1 r).bind fun ra =>
            (eatCI (strLit "to") ra).bind fun rb =>
              (eatSpaces1 rb).bind fun rc =>
                (eatCI (strLit "comments") rc).map eatOptDot
        ((eatCI (strLit "loads") r2).bind tail) <|>
          ((eatCI (strLit "load") r2).bind tail) <|>
            ((eatCI (strLit "work") r2).bind tail)

/-- Matcher for the case-insensitive phrase: word boundary, "post",
whitespace, "to", whitespace, "comments", optional dot. -/
def tryPostToComments (prev : Option Char) (l : List Char) : Option (List Char) :=
  if !(prevBoundary prev) then none
  else
    (eatCI (strLit "post") l).bind fun r1 =>
      (eatSpaces1 r1).bind fun r2 =>
        (eatCI (strLit "to") r2).bind fun r3 =>
          (eatSpaces1 r3).bind fun r4 =>
            (eatCI (strLit "comments") r4).map eatOptDot

/-- Matcher for the case-insensitive phrase: word boundary, "exposure",
whitespace, digits, whitespace, "of", whitespace, digits, word boundary. -/
def tryExposureSub (prev : Option Char) (l : List Char) : Option (List Char) :=
  if !(prevBoundary prev) then none
  else
    (eatCI (strLit "exposure") l).bind fun r1 =>
      (eatSpaces1 r1).bind fun r2 =>
        (eatDigits1 r2).bind fun r3 =>
          (eatSpaces1 r3).bind fun r4 =>
            (eatCI (strLit "of") r4).bind fun r5 =>
              (eatSpaces1 r5).bind fun r6 =>
                (eatDigits1 r6).bind fun r7 =>
                  if nonWordHead r7 then some r7 else none

/-- One section of a blog post: a heading and its detail text
(PostComponent of the data model; produced by the external parser). -/
structure PostComponent where
  component : String
  details : String
deriving DecidableEq

/-- Embedding of cfa_etl.movements.component_tag: fixed-priority keyword
match on the lowercased heading. -/
def component_tag (name : String) : String :=
  let name_l := lowerStr name.data
  if containsSub name_l (strLit "floater strength") then "floater_strength"
  else if containsSub name_l (strLit "strength") then "strength"
  else if containsSub name_l (strLit "assistance") || containsSub name_l (strLit "accessory")
      || containsSub name_l (strLit "bodybuilding") then "assistance"
  else if containsSub name_l (strLit "metcon") || containsSub name_l (strLit "conditioning")
      || containsSub name_l (strLit "workout") then "conditioning"
  else if containsSub name_l (strLit "partner") || containsSub name_l (strLit "team") then "partner"
  else ""

/-- Headings excluded unconditionally by is_workout_component. -/
def ignoreHeadings : List (List Char) :=
  [strLit "training cycle", strLit "upcoming", strLit "schedule", strLit "news",
   strLit "notes", strLit "recap", strLit "tomorrow", strLit "monday",
   strLit "tuesday", strLit "wednesday", strLit "thursday", strLit "friday",
   strLit "saturday", strLit "sunday"]

/-- Movement vocabulary substrings for the heading regex in
is_workout_component (the pull-up and push-up pieces expanded to their
three spellings). -/
def headingMovementSubs : List (List Char) :=
  [strLit "press", strLit "squat", strLit "deadlift", strLit "clean",
   strLit "snatch", strLit "row", strLit "run", strLit "bike",
   strLit "burpee", strLit "swing",
   strLit "pullup", strLit "pull-up", strLit "pull up",
   strLit "pushup", strLit "push-up", strLit "push up"]

/-- Embedding of cfa_etl.movements.is_workout_component: ignore-list check
on the normalized heading, then component_tag, then movement vocabulary,
then generic workout keywords. -/
def is_workout_component (name : String) : Bool :=
  let name_l := lowerStr name.data
  let name_norm := name_l.map (fun c => if isWordChar c || isSpaceChar c then c else ' ')
  if ignoreHeadings.any (fun k => containsSub name_norm k) then false
  else if component_tag name ≠ "" then true
  else if headingMovementSubs.any (fun k => containsSub name_norm k) then true
  else if [strLit "wod", strLit "workout", strLit "metcon", strLit "conditioning",
           strLit "cash out", strLit "buy in", strLit "cash-out",
           strLit "cashout"].any (fun k => containsSub name_norm k) then true
  else false

/-- Whole-word occurrence of "cal" or "calories" (the regex with word
boundaries around cal with an optional ories tail). -/
def hasCalWord (d : List Char) : Bool :=
  (List.range (d.length + 1)).any (fun i =>
    prevBoundary (d[i-1]?.filter (fun _ => i ≠ 0)) &&
    (let r := d.drop i
     ((strLit "calories").isPrefixOf r && nonWordHead (r.drop 8)) ||
       ((strLit "cal").isPrefixOf r && nonWordHead (r.drop 3))))

/-- Occurrence of a digit run delimited by word boundaries (the regex with
word boundaries around one or more digits). -/
def hasBoundedDigitRun (d : List Char) : Bool :=
  (List.range d.length).any (fun i =>
    prevBoundary (d[i-1]?.filter (fun _ => i ≠ 0)) &&
    (match d.drop i with
     | [] => false
     | c :: _ => c.isDigit) &&
    nonWordHead ((d.drop i).dropWhile Char.isDigit))

/-- Movement vocabulary substrings for the body regex in
_details_look_like_workout. -/
def bodyMovementSubs : List (List Char) :=
  [strLit "row", strLit "run", strLit "bike", strLit "burpee", strLit "squat",
   strLit "deadlift", strLit "snatch", strLit "clean", strLit "press",
   strLit "pullup", strLit "pull-up", strLit "pull up",
   strLit "pushup", strLit "push-up", strLit "push up",
   strLit "thruster", strLit "swing"]

/-- Embedding of cfa_etl.movements._details_look_like_workout: empty text is
not a workout; otherwise look for format keywords, a calorie marker next to
bike or row, or a bounded digit run together with movement vocabulary. -/
def details_look_like_workout (details : String) : Bool :=
  if details.data.isEmpty then false
  else
    let d := lowerStr details.data
    if [strLit "amrap", strLit "for time", strLit "emom", strLit "every",
        strLit "interval", strLit "tabata"].any (fun k => containsSub d k) then true
    else if hasCalWord d && (containsSub d (strLit "bike") || containsSub d (strLit "row")) then true
    else if hasBoundedDigitRun d && bodyMovementSubs.any (fun k => containsSub d k) then true
    else false

/-- Phrases whose presence in a lowercased line causes it to be skipped
(relative-future references and schedule headers). -/
def skipMarkers : List (List Char) :=
  [strLit "tomorrow", strLit "next week", strLit "next day", strLit "next cycle",
   strLit "tomorrows", strLit "training cycle", strLit "our new cycle starts",
   strLit "monday:", strLit "tuesday:", strLit "wednesday:", strLit "thursday:",
   strLit "friday:", strLit "saturday:", strLit "sunday:"]

/-- Curated promotional-phrase markers; on the first line containing one,
the rest of the component is discarded. -/
def promoBreaks : List (List Char) :=
  [strLit "pull for pride", strLit "east coast gambit", strLit "iron maidens",
   strLit "registration will open", strLit "next level weightlifting",
   strLit "subway series", strLit "our new cycle starts",
   strLit "training cycle dates", strLit "goals:"]

/-- Character translation applied before whitespace normalization: the
non-breaking space becomes a plain space and curly single quotes become the
plain apostrophe. -/
def translateLineChar (c : Char) : Char :=
  if c = Char.ofNat 160 then ' '
  else if c = Char.ofNat 8217 || c = Char.ofNat 8216 then '\''
  else c

/-- Whitespace-normalized form of a lowercased line: translate characters,
split on whitespace and re-join single-spaced. -/
def normLine (lc : List Char) : List Char :=
  List.intercalate [' '] (pySplitWs (lc.map translateLineChar))

/-- True when the normalized line consists solely of underscores, hyphens
and whitespace (and is non-empty): a structural divider line. -/
def fullmatchSep (l : List Char) : Bool :=
  !l.isEmpty && l.all (fun c => c = '_' || c = '-' || isSpaceChar c)

/-- Does the regex piece "post", whitespace, anything, "comments" match
starting exactly at the head of the input? -/
def postCommentsAt (l : List Char) : Bool :=
  (strLit "post").isPrefixOf l &&
    (let rs := l.drop 4
     (List.range rs.length).any (fun k =>
       1 ≤ k && (rs.take k).all isSpaceChar &&
         (let tl := rs.drop k
          (List.range (tl.length + 1)).any (fun j =>
            (tl.take j).all (· ≠ '\n') && (strLit "comments").isPrefixOf (tl.drop j)))))

/-- Leftmost start index of a match of "post", whitespace, anything,
"comments" (the re.search start position used to truncate the line). -/
def findPostComments (l : List Char) : Option Nat :=
  (List.range (l.length + 1)).find? (fun i => postCommentsAt (l.drop i))

/-- Does the line start (after stripping) with digits followed by a dot
(a numbered trivia question)? -/
def startsDigitsDot (l : List Char) : Bool :=
  match l with
  | [] => false
  | c :: _ => c.isDigit &&
      (match l.dropWhile Char.isDigit with
       | '.' :: _ => true
       | _ => false)

/-- Does the regex piece "weeks", whitespace, "1-2" match anywhere? -/
def hasWeeks12 (l : List Char) : Bool :=
  (List.range (l.length + 1)).any (fun i =>
    (strLit "weeks").isPrefixOf (l.drop i) &&
      (match l.drop (i + 5) with
       | c :: cs => isSpaceChar c && (strLit "1-2").isPrefixOf (cs.dropWhile isSpaceChar)
       | [] => false))

/-- Prepend a stripped truncation if it is non-empty (the guarded
line-prefix appends of the source loop). -/
def consIfNonEmpty (pre : List Char) (rest : List (List Char)) : List (List Char) :=
  if pre.isEmpty then rest else pre :: rest

/-- Embedding of the per-line filtering loop of
cfa_etl.movements.movement_text_from_components: skip blank, divider,
future-reference, trivia and whiteboard-recap lines, stop the component at
a promotional marker or a weeks-1-2 header, and truncate lines at
post-to-comments or exposure boilerplate, keeping non-empty prefixes. -/
def procLines : List (List Char) → List (List Char)
  | [] => []
  | line :: rest =>
    if (pyStrip line).isEmpty then procLines rest
    else
      let lc := lowerStr line
      let lcn := normLine lc
      if fullmatchSep lcn then procLines rest
      else if skipMarkers.any (fun m => containsSub lc m) then procLines rest
      else if containsSub lc (strLit "trivia")
          || (startsDigitsDot (pyStrip lc) && line.contains '?') then procLines rest
      else if promoBreaks.any (fun m => containsSub lcn m) then []
      else
        match findPostComments lcn with
        | some i => consIfNonEmpty (pyStrip (line.take i)) (procLines rest)
        | none =>
          if containsSub lcn (strLit "post") && containsSub lcn (strLit "comments") then
            let pre :=
              match findSubIdx lc (strLit "post") with
              | some i => line.take i
              | none => line.dropLast
            consIfNonEmpty (pyStrip pre) (procLines rest)
          else if hasWeeks12 lcn then []
          else if containsSub lcn (strLit "exposure") then
            let pre :=
              match findSubIdx line (strLit "exposure") with
              | some i => line.take i
              | none => line
            consIfNonEmpty (pyStrip pre) (procLines rest)
          else if containsSub lcn (strLit "whiteboard") && containsSub lcn (strLit "yesterday") then
            procLines rest
          else line :: procLines rest

/-- Boilerplate-to-line-break normalization applied to a component's detail
text before line processing: divider runs, post-loads/work-to-comments,
post-to-comments and exposure-n-of-m phrases all become line breaks. -/
def normalizeDetail (d : List Char) : List Char :=
  let d1 := regexSub (tryRunSub '_') none d
  let d2 := regexSub (tryRunSub '-') none d1
  let d3 := regexSub tryPostLoadsWork none d2
  let d4 := regexSub tryPostToComments none d3
  regexSub tryExposureSub none d4

/-- Embedding of cfa_etl.movements.movement_text_from_components: keep the
workout-relevant components (falling back to all components when none
qualifies), normalize and filter their detail lines, and join the surviving
lines with spaces; when no line survives, join the raw detail texts of the
retained components. -/
def movement_text_from_components (components : List PostComponent) : String :=
  let workout_components := components.filter (fun c =>
    is_workout_component c.component || details_look_like_workout c.details)
  let source_components := if workout_components.isEmpty then components else workout_components
  let lines := (source_components.map (fun c => procLines (splitOnNl (normalizeDetail c.details.data)))).flatten
  if !lines.isEmpty then String.mk (List.intercalate [' '] lines)
  else if !source_components.isEmpty then
    String.mk (List.intercalate [' '] (source_components.map (fun c => c.details.data)))
  else ""

/-- Lowercased combined heading-plus-details text of the first two
components (the intro inspected by is_rest_day). -/
def introText (components : List PostComponent) : List Char :=
  lowerStr (List.intercalate [' ']
    ((components.take 2).map (fun c => pyStrip (c.component.data ++ ' ' :: c.details.data))))

/-- Embedding of cfa_etl.movements.is_rest_day: a rest-day title decides
immediately; otherwise only the intro text of the first two components is
inspected. -/
def is_rest_day (components : List PostComponent) (title : String) : Bool :=
  if containsSub (lowerStr title.data) (strLit "rest day") then true
  else if !containsSub (introText components) (strLit "rest day") then false
  else if details_look_like_workout (String.mk (introText components)) then false
  else true

/-- Embedding of cfa_etl.movements.extract_rep_scheme: collect detail lines
containing rep or format keywords or a digit, prefixed by their heading,
joined by a bar separator and truncated to 400 characters; otherwise fall
back to the first component truncated to 200 characters. -/
def extract_rep_scheme (components : List PostComponent) : String :=
  let keywords := [strLit "amrap", strLit "for time", strLit "emom", strLit "every",
    strLit "round", strLit "rounds", strLit "minutes", strLit "minute"]
  let lines := (components.map (fun comp =>
    (splitOnNl comp.details.data).filterMap (fun line =>
      let line_clean := pyStrip line
      if line_clean.isEmpty then none
      else
        let lc := lowerStr line_clean
        if keywords.any (fun k => containsSub lc k) || line_clean.any Char.isDigit then
          some (stripBoth (fun c => c = ':' || c = ' ')
            (comp.component.data ++ strLit ": " ++ line_clean))
        else none))).flatten
  if !lines.isEmpty then String.mk ((List.intercalate (strLit " | ") lines).take 400)
  else
    match components with
    | [] => ""
    | first :: _ => String.mk ((first.component.data ++ strLit ": " ++ first.details.data).take 200)

/-- Embedding of cfa_etl.movements.detect_format: first match in the fixed
priority amrap, for time, emom (including every minute), interval
(including tabata); otherwise empty. -/
def detect_format (text : String) : String :=
  let text_l := lowerStr text.data
  if containsSub text_l (strLit "amrap") then "amrap"
  else if containsSub text_l (strLit "for time") then "for time"
  else if containsSub text_l (strLit "emom") || containsSub text_l (strLit "every minute") then "emom"
  else if containsSub text_l (strLit "interval") || containsSub text_l (strLit "tabata") then "interval"
  else ""

/-- Embedding of cfa_etl.movements.tag_movements over an abstract compiled
pattern library: each pattern is modelled as a Boolean matcher on the
lowercased text (re.Pattern.search).  The two suppression rules are applied
before pattern matching, exactly as in the source. -/
def tag_movements (text : String) (compiled : List (String × List (String → Bool))) :
    List String :=
  let text_lower := String.mk (lowerStr text.data)
  let instructional_clean_deadlift :=
    strContains text_lower "set up like a clean" && strContains text_lower "deadlift the bar up"
  compiled.filterMap (fun p =>
    if (p.1 = "clean" || p.1 = "deadlift") && instructional_clean_deadlift then none
    else if p.1 = "deadlift" &&
        (strContains text_lower "clean deadlift" || strContains text_lower "snatch deadlift") then none
    else if p.2.any (fun r => r text_lower) then some p.1
    else none)

/-- Raw post as consumed by the canonical builder: the fields produced by
the external source fetcher (process_post), with optional id and date
modelling possibly missing input fields. -/
structure RawBase where
  id : Option Int
  date : Option String
  title : Option String
  link : Option String
  components : List PostComponent
deriving DecidableEq

/-- Canonical record produced by build_canonical.  A workout number of none
models the null workout number a rest-day record receives; a comment count
of none models the comment_count key being absent from the record. -/
structure Rec where
  id : Option Int
  date : Option String
  title : Option String
  link : Option String
  components : List PostComponent
  is_rest_day : Bool
  movements : List String
  format : String
  component_tags : List String
  comment_count : Option Nat
  seq_no : Nat
  workout_no : Option Nat
  milestones : List String
deriving DecidableEq

/-- Content fields of a record: everything except the ordering fields
assigned by the numbering and milestone passes. -/
structure RecCore where
  id : Option Int
  date : Option String
  title : Option String
  link : Option String
  components : List PostComponent
  is_rest_day : Bool
  movements : List String
  format : String
  component_tags : List String
  comment_count : Option Nat
deriving DecidableEq

/-- Project a record to its content fields. -/
def Rec.core (r : Rec) : RecCore :=
  ⟨r.id, r.date, r.title, r.link, r.components, r.is_rest_day, r.movements,
   r.format, r.component_tags, r.comment_count⟩

/-- Python x.get("date") or "" on an optional string. -/
def orEmptyS : Option String → String
  | some s => s
  | none => ""

/-- Python x.get("id") or 0 on an optional integer (a missing id and an id
of zero both sort as zero). -/
def orZeroI : Option Int → Int
  | some i => i
  | none => 0

/-- Externally supplied id-to-count comment map, modelled as an association
list (a Python dict from post id to comment count). -/
abbrev CommentCounts := List (Int × Nat)

/-- Python truthiness of the optional comment map: present and non-empty. -/
def ccTruthy : Option CommentCounts → Bool
  | some m => !m.isEmpty
  | none => false

/-- Python comment_counts.get(id, 0): look the id up, defaulting to zero
when the id is missing from the map or the record has no id. -/
def ccGet (m : CommentCounts) (id : Option Int) : Nat :=
  match id with
  | some i =>
    match m.find? (fun p => p.1 = i) with
    | some p => p.2
    | none => 0
  | none => 0

/-- Per-post record construction of cfa_etl.canonical.build_canonical: the
rest-day branch empties movements, format and component tags and only sets
a comment count when a non-empty map was supplied; the workout branch runs
the text normalizer, the movement tagger and the format detector, and
collects the distinct non-empty component tags (the source builds a Python
set; the embedding deduplicates keeping first occurrences). -/
def buildRecord (compiled : List (String × List (String → Bool)))
    (comment_counts : Option CommentCounts) (post : RawBase) : Rec :=
  if is_rest_day post.components (orEmptyS post.title) then
    { id := post.id, date := post.date, title := post.title, link := post.link,
      components := post.components, is_rest_day := true,
      movements := [], format := "", component_tags := [],
      comment_count :=
        if ccTruthy comment_counts then some (ccGet (comment_counts.getD []) post.id) else none,
      seq_no := 0, workout_no := none, milestones := [] }
  else
    let movement_text := movement_text_from_components post.components
    let movement_source :=
      String.mk (pyStrip ((orEmptyS post.title).data ++ ' ' :: movement_text.data))
    let movements :=
      tag_movements (String.mk (lowerStr movement_source.data)) compiled
    let formats := detect_format (String.mk (lowerStr movement_source.data))
    let component_tags :=
      ((post.components.map (fun c => component_tag c.component)).filter (· ≠ "")).dedup
    { id := post.id, date := post.date, title := post.title, link := post.link,
      components := post.components, is_rest_day := false,
      movements := movements, format := formats, component_tags := component_tags,
      comment_count :=
        some (if ccTruthy comment_counts then ccGet (comment_counts.getD []) post.id else 0),
      seq_no := 0, workout_no := none, milestones := [] }

/-- Sort key of build_canonical: the pair of date-or-empty-string and
id-or-zero, compared as Python compares tuples. -/
def keyOf (r : Rec) : String × Int :=
  (orEmptyS r.date, orZeroI r.id)

/-- Python tuple comparison on the sort key. -/
def keyLE (a b : String × Int) : Bool :=
  a.1 < b.1 || (a.1 = b.1 && a.2 ≤ b.2)

/-- Record comparison used by the stable sort in build_canonical. -/
def sortKeyLE (a b : Rec) : Bool :=
  keyLE (keyOf a) (keyOf b)

/-- Numbering pass of build_canonical: sequence numbers over all records
starting at the given counter, workout numbers only over non-rest-day
records. -/
def assignNumbers : Nat → Nat → List Rec → List Rec
  | _, _, [] => []
  | seq, w, r :: rs =>
    if r.is_rest_day then
      { r with seq_no := seq, workout_no := none } :: assignNumbers (seq + 1) w rs
    else
      { r with seq_no := seq, workout_no := some (w + 1) } :: assignNumbers (seq + 1) (w + 1) rs

/-- Milestone pass of build_canonical: a record whose workout number is
1000, 2500, 5000 or the total workout count appends the milestone label to
its milestone list. -/
def addMilestones (total : Nat) (r : Rec) : Rec :=
  match r.workout_no with
  | some wn =>
    if wn = 1000 || wn = 2500 || wn = 5000 || wn = total then
      { r with milestones := r.milestones ++ [toString wn ++ "th workout"] }
    else r
  | none => r

/-- Embedding of cfa_etl.canonical.build_canonical: build one record per
raw post, sort ascending by the (date, id) key, assign sequence and workout
numbers, then apply milestone labels using the total workout count. -/
def build_canonical (compiled : List (String × List (String → Bool)))
    (raw_posts : List RawBase) (comment_counts : Option CommentCounts) : List Rec :=
  let canonical := raw_posts.map (buildRecord compiled comment_counts)
  let sorted := canonical.mergeSort sortKeyLE
  let numbered := assignNumbers 1 0 sorted
  let total := sorted.countP (fun r => !r.is_rest_day)
  numbered.map (addMilestones total)

theorem addMilestones_core (t : Nat) (r : Rec) : (addMilestones t r).core = r.core := by
  unfold addMilestones
  rcases h : r.workout_no with _ | wn <;> simp [h] <;> split <;> simp [Rec.core]

theorem addMilestones_seq (t : Nat) (r : Rec) : (addMilestones t r).seq_no = r.seq_no := by
  unfold addMilestones
  rcases h : r.workout_no with _ | wn <;> simp [h] <;> split <;> simp

theorem addMilestones_workout (t : Nat) (r : Rec) :
    (addMilestones t r).workout_no = r.workout_no := by
  unfold addMilestones
  rcases h : r.workout_no with _ | wn <;> simp [h] <;> split <;> simp [h]

theorem addMilestones_rest (t : Nat) (r : Rec) :
    (addMilestones t r).is_rest_day = r.is_rest_day := by
  unfold addMilestones
  rcases h : r.workout_no with _ | wn <;> simp [h] <;> split <;> simp

theorem assign_map_core (s w : Nat) (l : List Rec) :
    (assignNumbers s w l).map Rec.core = l.map Rec.core := by
  induction l generalizing s w with
  | nil => rfl
  | cons r rs ih =>
    unfold assignNumbers
    by_cases h : r.is_rest_day <;> simp [h, Rec.core, ih]

theorem assign_map_seq (s w : Nat) (l : List Rec) :
    (assignNumbers s w l).map Rec.seq_no = List.range' s l.length := by
  induction l generalizing s w with
  | nil => rfl
  | cons r rs ih =>
    unfold assignNumbers
    by_cases h : r.is_rest_day <;> simp [h, ih, List.range'_succ]

theorem assign_rest_workout (s w : Nat) (l : List Rec) :
    ∀ r ∈ assignNumbers s w l, r.is_rest_day = true → r.workout_no = none := by
  induction l generalizing s w with
  | nil => intro r hr; simp [assignNumbers] at hr
  | cons q rs ih =>
    intro r hr hrest
    unfold assignNumbers at hr
    by_cases h : q.is_rest_day <;> simp [h] at hr
    · rcases hr with hr | hr
      · rw [hr]
      · exact ih _ _ r hr hrest
    · rcases hr with hr | hr
      · rw [hr] at hrest; simp at hrest
      · exact ih _ _ r hr hrest

theorem assign_filter_workout (s w : Nat) (l : List Rec) :
    ((assignNumbers s w l).filter (fun r => !r.is_rest_day)).map Rec.workout_no =
      (List.range' (w + 1) (l.countP (fun r => !r.is_rest_day))).map some := by
  induction l generalizing s w with
  | nil => rfl
  | cons q rs ih =>
    unfold assignNumbers
    by_cases h : q.is_rest_day <;>
      simp [h, List.countP_cons, ih, List.filter_cons, List.range'_succ]

theorem assign_map_milestones (s w : Nat) (l : List Rec) :
    (assignNumbers s w l).map Rec.milestones = l.map Rec.milestones := by
  induction l generalizing s w with
  | nil => rfl
  | cons r rs ih =>
    unfold assignNumbers
    by_cases h : r.is_rest_day <;> simp [h, ih]

theorem assign_length (s w : Nat) (l : List Rec) :
    (assignNumbers s w l).length = l.length := by
  have := congrArg List.length (assign_map_core s w l)
  simpa using this

theorem keyLE_total (a b : String × Int) : (keyLE a b || keyLE b a) = true := by
  rcases lt_trichotomy a.1 b.1 with h | h | h
  · simp [keyLE, h]
  · rcases le_total a.2 b.2 with h2 | h2 <;> simp [keyLE, h, h2]
  · simp [keyLE, h]

theorem keyLE_trans (a b c : String × Int) (hab : keyLE a b = true)
    (hbc : keyLE b c = true) : keyLE a c = true := by
  simp only [keyLE, Bool.or_eq_true, Bool.and_eq_true, decide_eq_true_eq] at *
  rcases hab with hab | hab
  · rcases hbc with hbc | hbc
    · exact Or.inl (lt_trans hab hbc)
    · exact Or.inl (hbc.1 ▸ hab)
  · rcases hbc with hbc | hbc
    · exact Or.inl (hab.1 ▸ hbc)
    · exact Or.inr ⟨hab.1.trans hbc.1, le_trans hab.2 hbc.2⟩

theorem assign_countP (s w : Nat) (l : List Rec) :
    (assignNumbers s w l).countP (fun r => !r.is_rest_day) =
      l.countP (fun r => !r.is_rest_day) := by
  induction l generalizing s w with
  | nil => rfl
  | cons q rs ih =>
    unfold assignNumbers
    by_cases h : q.is_rest_day <;> simp [h, List.countP_cons, ih]

theorem assign_map_key (s w : Nat) (l : List Rec) :
    (assignNumbers s w l).map keyOf = l.map keyOf := by
  induction l generalizing s w with
  | nil => rfl
  | cons q rs ih =>
    unfold assignNumbers
    by_cases h : q.is_rest_day <;> simp [h, keyOf, ih]

theorem addMilestones_key (t : Nat) (r : Rec) : keyOf (addMilestones t r) = keyOf r := by
  unfold addMilestones
  rcases h : r.workout_no with _ | wn <;> simp [h] <;> split <;> simp [keyOf]

theorem sortKeyLE_trans (a b c : Rec) (hab : sortKeyLE a b = true)
    (hbc : sortKeyLE b c = true) : sortKeyLE a c = true :=
  keyLE_trans _ _ _ hab hbc

theorem sortKeyLE_total (a b : Rec) : (sortKeyLE a b || sortKeyLE b a) = true :=
  keyLE_total _ _

theorem buildRecord_milestones (compiled : List (String × List (String → Bool)))
    (cc : Option CommentCounts) (p : RawBase) :
    (buildRecord compiled cc p).milestones = [] := by
  unfold buildRecord
  split <;> rfl

theorem mergeSort_milestones (l : List Rec) (h : ∀ r ∈ l, r.milestones = [])
    (r : Rec) (hr : r ∈ l.mergeSort sortKeyLE) : r.milestones = [] :=
  h r (List.mem_mergeSort.mp hr)

/-- Unfolding equation for build_canonical in terms of its passes. -/
theorem build_canonical_eq (compiled : List (String × List (String → Bool)))
    (raw_posts : List RawBase) (cc : Option CommentCounts) :
    build_canonical compiled raw_posts cc =
      (assignNumbers 1 0 ((raw_posts.map (buildRecord compiled cc)).mergeSort sortKeyLE)).map
        (addMilestones (((raw_posts.map (buildRecord compiled cc)).mergeSort sortKeyLE).countP
          (fun r => !r.is_rest_day))) := rfl

theorem build_canonical_countP (compiled : List (String × List (String → Bool)))
    (raw_posts : List RawBase) (cc : Option CommentCounts) :
    (build_canonical compiled raw_posts cc).countP (fun r => !r.is_rest_day) =
      ((raw_posts.map (buildRecord compiled cc)).mergeSort sortKeyLE).countP
        (fun r => !r.is_rest_day) := by
  rw [build_canonical_eq, List.countP_map]
  rw [show ((fun r : Rec => !r.is_rest_day) ∘ addMilestones _) = fun r : Rec =>
    !(addMilestones _ r).is_rest_day from rfl]
  rw [List.countP_congr (fun r _ => by rw [addMilestones_rest]), assign_countP]

/-- Claim C1: for every pattern library, input post sequence and comment
map, the output of build_canonical lists seq_no values exactly 1..N in
output order, is sorted ascending by the (date-or-empty, id-or-zero) key,
lists workout_no values over the non-rest-day records exactly 1..M (M the
non-rest-day count) in the same relative order, and gives rest-day records
no workout number. -/
theorem build_canonical_numbering (compiled : List (String × List (String → Bool)))
    (raw_posts : List RawBase) (cc : Option CommentCounts) :
    ((build_canonical compiled raw_posts cc).map Rec.seq_no =
      List.range' 1 (build_canonical compiled raw_posts cc).length) ∧
    List.Pairwise (fun a b => sortKeyLE a b = true) (build_canonical compiled raw_posts cc) ∧
    (((build_canonical compiled raw_posts cc).filter (fun r => !r.is_rest_day)).map
        Rec.workout_no =
      (List.range' 1 ((build_canonical compiled raw_posts cc).countP
        (fun r => !r.is_rest_day))).map some) ∧
    (∀ r ∈ build_canonical compiled raw_posts cc, r.is_rest_day = true → r.workout_no = none) := by
  rw [build_canonical_countP, build_canonical_eq]
  set sorted := (raw_posts.map (buildRecord compiled cc)).mergeSort sortKeyLE with hsorted
  set T := sorted.countP (fun r => !r.is_rest_day) with hT
  refine ⟨?_, ?_, ?_, ?_⟩
  · simp only [List.map_map, Function.comp_def, addMilestones_seq, List.length_map]
    rw [show (fun r : Rec => r.seq_no) = Rec.seq_no from rfl, assign_map_seq, assign_length]
  · have hpair : List.Pairwise (fun a b => sortKeyLE a b = true) sorted :=
      List.sorted_mergeSort sortKeyLE_trans sortKeyLE_total
        (raw_posts.map (buildRecord compiled cc))
    have hkeys : ((assignNumbers 1 0 sorted).map (addMilestones T)).map keyOf =
        sorted.map keyOf := by
      simp only [List.map_map, Function.comp_def, addMilestones_key]
      rw [show (fun r : Rec => keyOf r) = keyOf from rfl, assign_map_key]
    have h1 : List.Pairwise (fun a b => keyLE a b = true)
        (((assignNumbers 1 0 sorted).map (addMilestones T)).map keyOf) := by
      rw [hkeys]
      exact List.pairwise_map.mpr hpair
    exact List.pairwise_map.mp h1
  · rw [List.filter_map]
    have hf : ((assignNumbers 1 0 sorted).filter ((fun r : Rec => !r.is_rest_day) ∘
        addMilestones T)) = (assignNumbers 1 0 sorted).filter (fun r => !r.is_rest_day) := by
      refine List.filter_congr (fun r _ => ?_)
      simp only [Function.comp_apply, addMilestones_rest]
    rw [hf]
    simp only [List.map_map, Function.comp_def, addMilestones_workout]
    rw [show (fun r : Rec => r.workout_no) = Rec.workout_no from rfl]
    exact assign_filter_workout 1 0 sorted
  · intro r hr hrest
    rcases List.mem_map.mp hr with ⟨q, hq, hqr⟩
    have h1 : q.is_rest_day = true := by
      rw [← hqr] at hrest
      rwa [addMilestones_rest] at hrest
    have h2 : q.workout_no = none := assign_rest_workout 1 0 sorted q hq h1
    rw [← hqr, addMilestones_workout, h2]

/-- Claim C2: a record of build_canonical carries a milestone label exactly
when its workout number lies in the set of 1000, 2500, 5000 and the total
non-rest-day count, and then its milestone list is exactly the single label
of the workout number followed by "th workout"; every other record
(including all rest-day records) has an empty milestone list. -/
theorem build_canonical_milestones (compiled : List (String × List (String → Bool)))
    (raw_posts : List RawBase) (cc : Option CommentCounts) :
    ∀ r ∈ build_canonical compiled raw_posts cc,
      r.milestones =
        match r.workout_no with
        | some wn =>
          if wn = 1000 ∨ wn = 2500 ∨ wn = 5000 ∨
              wn = (build_canonical compiled raw_posts cc).countP (fun x => !x.is_rest_day) then
            [toString wn ++ "th workout"]
          else []
        | none => [] := by
  intro r hr
  rw [build_canonical_countP]
  rw [build_canonical_eq] at hr
  set sorted := (raw_posts.map (buildRecord compiled cc)).mergeSort sortKeyLE with hsorted
  set T := sorted.countP (fun x => !x.is_rest_day) with hT
  rcases List.mem_map.mp hr with ⟨q, hq, hqr⟩
  have hmil : q.milestones = [] := by
    have h1 : q.milestones ∈ (assignNumbers 1 0 sorted).map Rec.milestones :=
      List.mem_map_of_mem Rec.milestones hq
    rw [assign_map_milestones] at h1
    rcases List.mem_map.mp h1 with ⟨q', hq', hq'm⟩
    have h2 : q'.milestones = [] := by
      have h3 := List.mem_mergeSort.mp hq'
      rcases List.mem_map.mp h3 with ⟨p, _, hp⟩
      rw [← hp, buildRecord_milestones]
    rw [← hq'm, h2]
  subst hqr
  rcases hwn : q.workout_no with _ | wn
  · unfold addMilestones
    simp [hwn, hmil]
  · unfold addMilestones
    simp only [hwn]
    split
    · next hcond =>
      have hp : wn = 1000 ∨ wn = 2500 ∨ wn = 5000 ∨ wn = T := by
        simpa [or_assoc] using hcond
      simp [hwn, hmil, hp]
    · next hcond =>
      have hp : ¬(wn = 1000 ∨ wn = 2500 ∨ wn = 5000 ∨ wn = T) := by
        intro h
        exact hcond (by simpa [or_assoc] using h)
      simp [hwn, hmil, hp]

/-- Comment-count property as a function of the content fields only. -/
def commentCountSpec (cc : Option CommentCounts) (c : RecCore) : Prop :=
  c.comment_count =
    if c.is_rest_day then
      (if ccTruthy cc then some (ccGet (cc.getD []) c.id) else none)
    else some (if ccTruthy cc then ccGet (cc.getD []) c.id else 0)

theorem buildRecord_commentCount (compiled : List (String × List (String → Bool)))
    (cc : Option CommentCounts) (p : RawBase) :
    commentCountSpec cc (buildRecord compiled cc p).core := by
  unfold buildRecord commentCountSpec
  split <;> simp [Rec.core]

theorem out_core_mem (compiled : List (String × List (String → Bool)))
    (raw_posts : List RawBase) (cc : Option CommentCounts) (r : Rec)
    (hr : r ∈ build_canonical compiled raw_posts cc) :
    ∃ p ∈ raw_posts, (buildRecord compiled cc p).core = r.core := by
  rw [build_canonical_eq] at hr
  set sorted := (raw_posts.map (buildRecord compiled cc)).mergeSort sortKeyLE with hsorted
  rcases List.mem_map.mp hr with ⟨q, hq, hqr⟩
  have h1 : q.core ∈ (assignNumbers 1 0 sorted).map Rec.core :=
    List.mem_map_of_mem Rec.core hq
  rw [assign_map_core] at h1
  rcases List.mem_map.mp h1 with ⟨q', hq', hq'c⟩
  rcases List.mem_map.mp (List.mem_mergeSort.mp hq') with ⟨p, hp, hpq⟩
  refine ⟨p, hp, ?_⟩
  rw [hpq, hq'c, ← hqr, addMilestones_core]

/-- Amended claim C9: every non-rest-day record carries a comment count
equal to the supplied map's value for its id (defaulting to zero), but a
rest-day record only carries a comment count when a non-empty map was
supplied; with an absent or empty map a rest-day record has no
comment_count field at all. -/
theorem build_canonical_comment_count (compiled : List (String × List (String → Bool)))
    (raw_posts : List RawBase) (cc : Option CommentCounts) :
    ∀ r ∈ build_canonical compiled raw_posts cc,
      r.comment_count =
        if r.is_rest_day then
          (if ccTruthy cc then some (ccGet (cc.getD []) r.id) else none)
        else some (if ccTruthy cc then ccGet (cc.getD []) r.id else 0) := by
  intro r hr
  rcases out_core_mem compiled raw_posts cc r hr with ⟨p, _, hp⟩
  have h1 : commentCountSpec cc r.core := by
    rw [← hp]
    exact buildRecord_commentCount compiled cc p
  exact h1

/-- Evaluation helper: build_canonical on a single post avoids the sort. -/
theorem build_canonical_singleton (compiled : List (String × List (String → Bool)))
    (cc : Option CommentCounts) (p : RawBase) :
    build_canonical compiled [p] cc =
      (assignNumbers 1 0 [buildRecord compiled cc p]).map
        (addMilestones ([buildRecord compiled cc p].countP (fun r => !r.is_rest_day))) := by
  rw [build_canonical_eq]
  rw [show (List.map (buildRecord compiled cc) [p]) = [buildRecord compiled cc p] from rfl]
  rw [List.mergeSort_singleton]

/-- Small concrete input: one ordinary workout post. -/
def demoWorkPost : RawBase :=
  ⟨some 3, some "2020-01-01", some "Squat Day", some "lnk2", []⟩

/-- Small concrete input: one rest-day post. -/
def demoRestPost : RawBase :=
  ⟨some 7, some "2020-01-02", some "Rest Day", some "lnk", []⟩

/-- Default record used to sample a concrete element of a built list. -/
def demoDefaultRec : Rec :=
  ⟨none, none, none, none, [], false, [], "", [], none, 0, none, []⟩

theorem build_canonical_numbering_witness :
    (build_canonical [] [demoWorkPost] none).map Rec.seq_no =
      List.range' 1 (build_canonical [] [demoWorkPost] none).length :=
  (build_canonical_numbering [] [demoWorkPost] none).1

theorem build_canonical_milestones_witness :
    ((build_canonical [] [demoWorkPost] none).getD 0 demoDefaultRec) ∈
        build_canonical [] [demoWorkPost] none ∧
      ((build_canonical [] [demoWorkPost] none).getD 0 demoDefaultRec).milestones =
        match ((build_canonical [] [demoWorkPost] none).getD 0 demoDefaultRec).workout_no with
        | some wn =>
          if wn = 1000 ∨ wn = 2500 ∨ wn = 5000 ∨
              wn = (build_canonical [] [demoWorkPost] none).countP (fun x => !x.is_rest_day) then
            [toString wn ++ "th workout"]
          else []
        | none => [] :=
  ⟨by rw [build_canonical_singleton]; decide,
   build_canonical_milestones [] [demoWorkPost] none _
     (by rw [build_canonical_singleton]; decide)⟩

/-- Counterexample to claim C9 as stated: with no comment map supplied, the
rest-day record built by build_canonical has no comment_count at all (the
field is never assigned), not a comment count of zero. -/
theorem comment_count_rest_day_counterexample :
    (build_canonical [] [demoRestPost] none).map Rec.comment_count = [none] ∧
      (none : Option Nat) ≠ some 0 :=
  ⟨by rw [build_canonical_singleton]; decide, by decide⟩

theorem build_canonical_comment_count_witness :
    ((build_canonical [] [demoWorkPost] (some [(3, 5)])).getD 0 demoDefaultRec) ∈
        build_canonical [] [demoWorkPost] (some [(3, 5)]) ∧
      ((build_canonical [] [demoWorkPost] (some [(3, 5)])).getD 0 demoDefaultRec).comment_count =
        if ((build_canonical [] [demoWorkPost] (some [(3, 5)])).getD 0
            demoDefaultRec).is_rest_day then
          (if ccTruthy (some [(3, 5)]) then
            some (ccGet ((some [(3, 5)] : Option CommentCounts).getD [])
              ((build_canonical [] [demoWorkPost] (some [(3, 5)])).getD 0 demoDefaultRec).id)
          else none)
        else
          some (if ccTruthy (some [(3, 5)]) then
            ccGet ((some [(3, 5)] : Option CommentCounts).getD [])
              ((build_canonical [] [demoWorkPost] (some [(3, 5)])).getD 0 demoDefaultRec).id
          else 0) :=
  ⟨by rw [build_canonical_singleton]; decide,
   build_canonical_comment_count [] [demoWorkPost] (some [(3, 5)]) _
     (by rw [build_canonical_singleton]; decide)⟩

/-- Claim C3: is_rest_day returns true exactly when the title contains
"rest day" case-insensitively, or "rest day" occurs in the combined
heading-plus-details intro of the first two components and that intro does
not itself read as a real workout (the _details_look_like_workout test). -/
theorem is_rest_day_spec (components : List PostComponent) (title : String) :
    is_rest_day components title = true ↔
      (containsSub (lowerStr title.data) (strLit "rest day") = true ∨
        (containsSub (introText components) (strLit "rest day") = true ∧
          details_look_like_workout (String.mk (introText components)) = false)) := by
  unfold is_rest_day
  by_cases h1 : containsSub (lowerStr title.data) (strLit "rest day") = true
  · simp [h1]
  · by_cases h2 : containsSub (introText components) (strLit "rest day") = true
    · by_cases h3 : details_look_like_workout (String.mk (introText components)) = true
      · simp [h1, h2, h3]
      · simp only [Bool.not_eq_true] at h3
        simp [h1, h2, h3]
    · simp only [Bool.not_eq_true] at h2
      simp [h1, h2]

theorem is_rest_day_spec_witness :
    is_rest_day [⟨"News", "today is a rest day"⟩] "" = true ∧
      (containsSub (introText [⟨"News", "today is a rest day"⟩]) (strLit "rest day") = true ∧
        details_look_like_workout
          (String.mk (introText [⟨"News", "today is a rest day"⟩])) = false) :=
  ⟨by decide,
   ((is_rest_day_spec [⟨"News", "today is a rest day"⟩] "").mp (by decide)).resolve_left
     (by decide)⟩

/-- Claim C4: tag_movements never outputs "clean" or "deadlift" when the
text carries both instructional cues; it never outputs "deadlift" when the
text contains "clean deadlift" or "snatch deadlift"; and any other label is
output exactly when one of its patterns matches the lowercased text. -/
theorem tag_movements_spec (text : String)
    (compiled : List (String × List (String → Bool))) :
    (strContains (String.mk (lowerStr text.data)) "set up like a clean" = true →
      strContains (String.mk (lowerStr text.data)) "deadlift the bar up" = true →
        "clean" ∉ tag_movements text compiled ∧ "deadlift" ∉ tag_movements text compiled) ∧
    ((strContains (String.mk (lowerStr text.data)) "clean deadlift" = true ∨
        strContains (String.mk (lowerStr text.data)) "snatch deadlift" = true) →
      "deadlift" ∉ tag_movements text compiled) ∧
    (∀ name, name ≠ "clean" → name ≠ "deadlift" →
      (name ∈ tag_movements text compiled ↔
        ∃ rs, (name, rs) ∈ compiled ∧
          rs.any (fun r => r (String.mk (lowerStr text.data))) = true)) := by
  unfold tag_movements
  refine ⟨?_, ?_, ?_⟩
  · intro h1 h2
    constructor
    · intro hmem
      rcases List.mem_filterMap.mp hmem with ⟨p, _, hp⟩
      simp only [h1, h2, Bool.and_self] at hp
      by_cases hc : p.1 = "clean" ∨ p.1 = "deadlift"
      · have : (p.1 = "clean" || p.1 = "deadlift") = true := by
          rcases hc with hc | hc <;> simp [hc]
        simp [this] at hp
      · push_neg at hc
        have : (p.1 = "clean" || p.1 = "deadlift") = false := by
          simp [hc.1, hc.2]
        simp only [this, Bool.false_and, Bool.false_eq_true, if_false] at hp
        split at hp
        · exact absurd hp (by simp)
        · split at hp
          · have := Option.some.inj hp
            exact hc.1 this
          · exact absurd hp (by simp)
    · intro hmem
      rcases List.mem_filterMap.mp hmem with ⟨p, _, hp⟩
      simp only [h1, h2, Bool.and_self] at hp
      by_cases hc : p.1 = "clean" ∨ p.1 = "deadlift"
      · have : (p.1 = "clean" || p.1 = "deadlift") = true := by
          rcases hc with hc | hc <;> simp [hc]
        simp [this] at hp
      · push_neg at hc
        have : (p.1 = "clean" || p.1 = "deadlift") = false := by
          simp [hc.1, hc.2]
        simp only [this, Bool.false_and, Bool.false_eq_true, if_false] at hp
        split at hp
        · exact absurd hp (by simp)
        · split at hp
          · have := Option.some.inj hp
            exact hc.2 this
          · exact absurd hp (by simp)
  · intro hcue hmem
    rcases List.mem_filterMap.mp hmem with ⟨p, _, hp⟩
    have hcue' : (strContains (String.mk (lowerStr text.data)) "clean deadlift" ||
        strContains (String.mk (lowerStr text.data)) "snatch deadlift") = true := by
      rcases hcue with h | h <;> simp [h]
    split at hp
    · exact absurd hp (by simp)
    · by_cases hd : p.1 = "deadlift"
      · simp [hd, hcue'] at hp
      · split at hp
        · exact absurd hp (by simp)
        · split at hp
          · have := Option.some.inj hp
            exact hd this
          · exact absurd hp (by simp)
  · intro name hnc hnd
    constructor
    · intro hmem
      rcases List.mem_filterMap.mp hmem with ⟨p, hpmem, hp⟩
      split at hp
      · exact absurd hp (by simp)
      · split at hp
        · exact absurd hp (by simp)
        · split at hp
          · next hmatch =>
            have hname := Option.some.inj hp
            exact ⟨p.2, by rw [← hname]; exact hpmem, hmatch⟩
          · exact absurd hp (by simp)
    · intro ⟨rs, hmem, hany⟩
      refine List.mem_filterMap.mpr ⟨(name, rs), hmem, ?_⟩
      have h1 : ((name, rs).1 = "clean" || (name, rs).1 = "deadlift") = false := by
        simp [hnc, hnd]
      simp only [h1, Bool.false_and, Bool.false_eq_true, if_false]
      have h2 : ((name, rs).1 = "deadlift" : Bool) = false := by simp [hnd]
      simp only [h2, Bool.false_and, Bool.false_eq_true, if_false]
      simp only [hany, if_true]

/-- Small concrete pattern library used to sample the tagging theorems. -/
def demoLib : List (String × List (String → Bool)) :=
  [("clean", [fun s => strContains s "clean"]),
   ("deadlift", [fun s => strContains s "deadlift"])]

theorem tag_movements_spec_witness :
    "clean" ∉ tag_movements "set up like a clean deadlift the bar up" demoLib ∧
      "deadlift" ∉ tag_movements "set up like a clean deadlift the bar up" demoLib :=
  (tag_movements_spec "set up like a clean deadlift the bar up" demoLib).1
    (by decide) (by decide)

theorem consIfNonEmpty_nonempty {pre : List Char} {rest : List (List Char)}
    {x : List Char} (hrest : ∀ y ∈ rest, y ≠ []) (hx : x ∈ consIfNonEmpty pre rest) :
    x ≠ [] := by
  unfold consIfNonEmpty at hx
  split at hx
  · exact hrest x hx
  · next h =>
    rcases List.mem_cons.mp hx with h1 | h1
    · subst h1
      intro hc
      rw [hc] at h
      simp at h
    · exact hrest x h1

theorem procLines_nonempty (ls : List (List Char)) :
    ∀ line ∈ procLines ls, line ≠ [] := by
  induction ls with
  | nil => intro l hl; simp [procLines] at hl
  | cons hd tl ih =>
    intro l hl
    unfold procLines at hl
    split at hl
    · exact ih l hl
    · next hblank =>
      simp only [] at hl
      split at hl
      · exact ih l hl
      · split at hl
        · exact ih l hl
        · split at hl
          · exact ih l hl
          · split at hl
            · simp at hl
            · split at hl
              · exact consIfNonEmpty_nonempty ih hl
              · split at hl
                · exact consIfNonEmpty_nonempty ih hl
                · split at hl
                  · simp at hl
                  · split at hl
                    · exact consIfNonEmpty_nonempty ih hl
                    · split at hl
                      · exact ih l hl
                      · rcases List.mem_cons.mp hl with h1 | h1
                        · subst h1
                          intro hc
                          rw [hc] at hblank
                          simp [pyStrip, stripBoth] at hblank
                        · exact ih l h1

theorem intercalate_space_ne_nil (xs : List (List Char)) (h : ∃ x ∈ xs, x ≠ []) :
    List.intercalate [' '] xs ≠ [] := by
  match xs with
  | [] => simp at h
  | [x] =>
    rcases h with ⟨y, hy, hne⟩
    simp only [List.mem_singleton] at hy
    subst hy
    simpa [List.intercalate, List.intersperse] using hne
  | x :: y :: t =>
    simp [List.intercalate, List.intersperse]

/-- Counterexample to claim C10 as stated: the Strength heading qualifies
as workout-relevant, so only that component (with empty details) is
retained, and the non-qualifying News component's non-empty text is
discarded entirely: the blob is empty even though content exists. -/
theorem movement_text_counterexample :
    movement_text_from_components [⟨"Strength", ""⟩, ⟨"News", "hello world"⟩] = "" ∧
      ("hello world" : String) ≠ "" :=
  ⟨by decide, by decide⟩

/-- Amended claim C10: when no component qualifies as workout-relevant, the
function falls back to using all components and never discards all text:
the blob is non-empty whenever some component has non-empty detail text.
(When some component does qualify, text of non-qualifying components can be
lost and the blob can be empty even though content exists.) -/
theorem movement_text_fallback (components : List PostComponent)
    (hnone : components.all (fun c => !(is_workout_component c.component ||
      details_look_like_workout c.details)) = true)
    (hsome : ∃ c ∈ components, c.details ≠ "") :
    movement_text_from_components components ≠ "" := by
  unfold movement_text_from_components
  have hfilter : components.filter (fun c =>
      is_workout_component c.component || details_look_like_workout c.details) = [] := by
    rw [List.filter_eq_nil_iff]
    intro c hc
    have h1 := List.all_eq_true.mp hnone c hc
    simp only [Bool.not_eq_true'] at h1
    simp [h1]
  simp only [hfilter, List.isEmpty_nil, if_true]
  rcases hsome with ⟨c0, hc0, hc0ne⟩
  have hc0data : c0.details.data ≠ [] := by
    intro hdd
    exact hc0ne (String.ext (by rw [hdd]))
  have hcompsne : components.isEmpty = false := by
    cases components with
    | nil => simp at hc0
    | cons a t => rfl
  set lines := (components.map (fun c =>
    procLines (splitOnNl (normalizeDetail c.details.data)))).flatten with hlinesdef
  split
  · next hlines =>
    intro hcon
    have hne : lines ≠ [] := by
      intro hh
      rw [hh] at hlines
      simp at hlines
    have h2 : List.intercalate [' '] lines = [] := by
      have := congrArg String.data hcon
      simpa using this
    rcases List.exists_mem_of_ne_nil lines hne with ⟨x, hx⟩
    have hxne : x ≠ [] := by
      rcases List.mem_flatten.mp hx with ⟨piece, hpiece, hxin⟩
      rcases List.mem_map.mp hpiece with ⟨c, _, hceq⟩
      rw [← hceq] at hxin
      exact procLines_nonempty _ x hxin
    exact intercalate_space_ne_nil lines ⟨x, hx, hxne⟩ h2
  · simp only [hcompsne, Bool.not_false, if_true]
    intro hcon
    have h2 : List.intercalate [' '] (components.map (fun c => c.details.data)) = [] := by
      have := congrArg String.data hcon
      simpa using this
    exact intercalate_space_ne_nil _
      ⟨c0.details.data, List.mem_map.mpr ⟨c0, hc0, rfl⟩, hc0data⟩ h2

theorem movement_text_fallback_witness :
    ([(⟨"News", "hello world"⟩ : PostComponent)].all (fun c =>
      !(is_workout_component c.component || details_look_like_workout c.details)) = true) ∧
      movement_text_from_components [⟨"News", "hello world"⟩] ≠ "" :=
  ⟨by decide,
   movement_text_fallback [⟨"News", "hello world"⟩] (by decide)
     ⟨⟨"News", "hello world"⟩, by decide, by decide⟩⟩

/-- Gregorian leap-year test. -/
def isLeapYear (y : Nat) : Bool :=
  (y % 4 = 0 && y % 100 ≠ 0) || y % 400 = 0

/-- Days in a month of the Gregorian calendar. -/
def daysInMonth (y m : Nat) : Nat :=
  if m = 2 then (if isLeapYear y then 29 else 28)
  else if m = 4 || m = 6 || m = 9 || m = 11 then 30 else 31

/-- Model of the Python standard-library datetime.fromisoformat on the
date-only form YYYY-MM-DD produced by this pipeline: exactly ten
characters, digits in the date positions, dashes between them, and a valid
calendar date; anything else fails to parse. -/
def fromisoformat (s : String) : Option (Nat × Nat × Nat) :=
  match s.data with
  | [y1, y2, y3, y4, '-', m1, m2, '-', d1, d2] =>
    if y1.isDigit && y2.isDigit && y3.isDigit && y4.isDigit &&
        m1.isDigit && m2.isDigit && d1.isDigit && d2.isDigit then
      let y := (y1.toNat - 48) * 1000 + (y2.toNat - 48) * 100 +
        (y3.toNat - 48) * 10 + (y4.toNat - 48)
      let m := (m1.toNat - 48) * 10 + (m2.toNat - 48)
      let d := (d1.toNat - 48) * 10 + (d2.toNat - 48)
      if 1 ≤ y && 1 ≤ m && m ≤ 12 && 1 ≤ d && d ≤ daysInMonth y m then
        some (y, m, d)
      else none
    else none
  | _ => none

/-- The weekday names produced by strftime with the %A directive. -/
def weekdayNames : List String :=
  ["Sunday", "Monday", "Tuesday", "Wednesday", "Thursday", "Friday", "Saturday"]

/-- Sakamoto's day-of-week computation (0 is Sunday). -/
def dayOfWeekIdx (y m d : Nat) : Nat :=
  let t := [0, 3, 2, 5, 0, 3, 5, 1, 4, 6, 2, 4]
  let y' := if m < 3 then y - 1 else y
  (y' + y' / 4 - y' / 100 + y' / 400 + t.getD (m - 1) 0 + d) % 7

/-- Weekday name of a parsed date (strftime %A). -/
def weekdayName (ymd : Nat × Nat × Nat) : String :=
  weekdayNames.getD (dayOfWeekIdx ymd.1 ymd.2.1 ymd.2.2) "Sunday"

/-- State of the aggregation pass of cfa_etl.aggregates.aggregate, for the
counters the claims are about: per-year totals, per-weekday totals,
movement day counts with their insertion-ordered key list, and per-movement
per-year counts.  Counters are modelled as total functions that are zero
outside their key sets; the remaining counters of the same single pass
(pair counts, per-movement weekday, monthly and calendar summaries) are
independent and are not needed by any claim. -/
structure AggState where
  yearly : String → Nat
  weekday : String → Nat
  movDays : String → Nat
  movYearly : String → String → Nat
  movKeys : List String

/-- Increment a counter at a key. -/
def bump (f : String → Nat) (k : String) : String → Nat :=
  fun x => if x = k then f x + 1 else f x

/-- Increment a two-level counter at a key pair. -/
def bump2 (f : String → String → Nat) (m y : String) : String → String → Nat :=
  fun a b => if a = m ∧ b = y then f a b + 1 else f a b

/-- Record a counter key in insertion order. -/
def addKey (ks : List String) (m : String) : List String :=
  if m ∈ ks then ks else ks ++ [m]

/-- Per-movement updates of the aggregation loop body. -/
def stepMovement (date : String) (st : AggState) (m : String) : AggState :=
  { st with
    movDays := bump st.movDays m
    movKeys := addKey st.movKeys m
    movYearly :=
      if date ≠ "" then bump2 st.movYearly m (String.mk (date.data.take 4))
      else st.movYearly }

/-- One iteration of the aggregation loop of cfa_etl.aggregates.aggregate:
a non-empty date feeds the year total (keyed by the first four characters)
unconditionally and the weekday total only when the date parses; the
record's de-duplicated movements then feed the movement counters. -/
def stepAgg (st : AggState) (item : Rec) : AggState :=
  let date := orEmptyS item.date
  let st1 :=
    if date ≠ "" then
      let sty := { st with yearly := bump st.yearly (String.mk (date.data.take 4)) }
      match fromisoformat date with
      | some ymd => { sty with weekday := bump sty.weekday (weekdayName ymd) }
      | none => sty
    else st
  (item.movements.dedup).foldl (stepMovement date) st1

/-- Empty aggregation state. -/
def initAgg : AggState :=
  ⟨fun _ => 0, fun _ => 0, fun _ => 0, fun _ _ => 0, []⟩

/-- Embedding of the single aggregation pass of
cfa_etl.aggregates.aggregate over the canonical records. -/
def aggregate (canonical : List Rec) : AggState :=
  canonical.foldl stepAgg initAgg

/-- The top-movements list of the aggregate report: the movement day-count
pairs sorted by count descending (Counter.most_common), truncated to 100
entries. -/
def top_movements (canonical : List Rec) : List (String × Nat) :=
  (((aggregate canonical).movKeys.map
    (fun m => (m, (aggregate canonical).movDays m))).mergeSort
      (fun a b => b.2 ≤ a.2)).take 100

theorem foldl_stepMovement_yearly (d : String) (ms : List String) (st : AggState) :
    (ms.foldl (stepMovement d) st).yearly = st.yearly := by
  induction ms generalizing st with
  | nil => rfl
  | cons m t ih => simp [List.foldl_cons, ih, stepMovement]

theorem foldl_stepMovement_weekday (d : String) (ms : List String) (st : AggState) :
    (ms.foldl (stepMovement d) st).weekday = st.weekday := by
  induction ms generalizing st with
  | nil => rfl
  | cons m t ih => simp [List.foldl_cons, ih, stepMovement]

theorem foldl_stepMovement_movDays (d : String) (ms : List String) (st : AggState)
    (hms : ms.Nodup) (m : String) :
    (ms.foldl (stepMovement d) st).movDays m =
      st.movDays m + (if m ∈ ms then 1 else 0) := by
  induction ms generalizing st with
  | nil => simp
  | cons a t ih =>
    rcases List.nodup_cons.mp hms with ⟨ha, ht⟩
    rw [List.foldl_cons, ih _ ht]
    by_cases hm : m = a
    · subst hm
      simp [stepMovement, bump, ha]
    · simp [stepMovement, bump, hm]

theorem foldl_stepMovement_movYearly (d : String) (ms : List String) (st : AggState)
    (hms : ms.Nodup) (m y : String) :
    (ms.foldl (stepMovement d) st).movYearly m y =
      st.movYearly m y +
        (if m ∈ ms ∧ d ≠ "" ∧ String.mk (d.data.take 4) = y then 1 else 0) := by
  induction ms generalizing st with
  | nil => simp
  | cons a t ih =>
    rcases List.nodup_cons.mp hms with ⟨ha, ht⟩
    rw [List.foldl_cons, ih _ ht]
    by_cases hm : m = a
    · subst hm
      by_cases hd : d = ""
      · simp [stepMovement, hd, ha]
      · by_cases hy : String.mk (d.data.take 4) = y
        · simp [stepMovement, bump2, hd, hy, ha]
        · simp [stepMovement, bump2, hd, hy, ha]
          exact fun h => hy h.symm
    · have hnb : (if d = "" then st.movYearly
          else bump2 st.movYearly a (String.mk (d.data.take 4))) m y = st.movYearly m y := by
        by_cases hd : d = "" <;> simp [hd, bump2, hm]
      simp [stepMovement, hnb, hm]

theorem weekdayName_mem (ymd : Nat × Nat × Nat) : weekdayName ymd ∈ weekdayNames := by
  unfold weekdayName
  have h7 : dayOfWeekIdx ymd.1 ymd.2.1 ymd.2.2 < 7 := by
    unfold dayOfWeekIdx
    exact Nat.mod_lt _ (by norm_num)
  set i := dayOfWeekIdx ymd.1 ymd.2.1 ymd.2.2 with hi
  interval_cases i <;> decide

theorem sum_map_bump (f : String → Nat) (k : String) (ks : List String)
    (hnd : ks.Nodup) (hk : k ∈ ks) :
    (ks.map (bump f k)).sum = (ks.map f).sum + 1 := by
  induction ks with
  | nil => simp at hk
  | cons a t ih =>
    rcases List.nodup_cons.mp hnd with ⟨ha, ht⟩
    rcases List.mem_cons.mp hk with h1 | h1
    · subst h1
      have hrest : t.map (bump f k) = t.map f := by
        refine List.map_congr_left (fun x hx => ?_)
        have : x ≠ k := fun hc => ha (hc ▸ hx)
        simp [bump, this]
      simp [hrest, bump]
      omega
    · have hak : a ≠ k := fun hc => (hc ▸ ha) h1
      simp only [List.map_cons, List.sum_cons, ih ht h1]
      have : bump f k a = f a := by simp [bump, hak]
      rw [this]
      omega

theorem stepAgg_yearly (st : AggState) (r : Rec) (y : String) :
    (stepAgg st r).yearly y =
      st.yearly y +
        (if orEmptyS r.date ≠ "" ∧ String.mk ((orEmptyS r.date).data.take 4) = y then 1
         else 0) := by
  simp only [stepAgg]
  by_cases hd : orEmptyS r.date = ""
  · simp [foldl_stepMovement_yearly, hd]
  · rcases hiso : fromisoformat (orEmptyS r.date) with _ | ymd
    · by_cases hy : String.mk ((orEmptyS r.date).data.take 4) = y
      · simp [foldl_stepMovement_yearly, hd, hiso, bump, hy]
      · simp [foldl_stepMovement_yearly, hd, hiso, bump, hy]
        exact fun h => hy h.symm
    · by_cases hy : String.mk ((orEmptyS r.date).data.take 4) = y
      · simp [foldl_stepMovement_yearly, hd, hiso, bump, hy]
      · simp [foldl_stepMovement_yearly, hd, hiso, bump, hy]
        exact fun h => hy h.symm

theorem stepAgg_weekday_sum (st : AggState) (r : Rec) :
    (weekdayNames.map (stepAgg st r).weekday).sum =
      (weekdayNames.map st.weekday).sum +
        (if orEmptyS r.date ≠ "" ∧ (fromisoformat (orEmptyS r.date)).isSome = true then 1
         else 0) := by
  simp only [stepAgg]
  by_cases hd : orEmptyS r.date = ""
  · simp [foldl_stepMovement_weekday, hd]
  · rcases hiso : fromisoformat (orEmptyS r.date) with _ | ymd
    · simp [foldl_stepMovement_weekday, hd, hiso]
    · have hnd : weekdayNames.Nodup := by decide
      simp only [foldl_stepMovement_weekday, ne_eq, hd, not_false_iff, if_true, hiso,
        Option.isSome_some, and_true]
      rw [sum_map_bump _ _ _ hnd (weekdayName_mem ymd)]

theorem stepAgg_movDays (st : AggState) (r : Rec) (m : String) :
    (stepAgg st r).movDays m =
      st.movDays m + (if m ∈ r.movements.dedup then 1 else 0) := by
  simp only [stepAgg]
  rw [foldl_stepMovement_movDays _ _ _ (List.nodup_dedup _)]
  by_cases hd : orEmptyS r.date = ""
  · simp [hd]
  · rcases hiso : fromisoformat (orEmptyS r.date) with _ | ymd <;> simp [hd, hiso]

theorem stepAgg_movYearly (st : AggState) (r : Rec) (m y : String) :
    (stepAgg st r).movYearly m y =
      st.movYearly m y +
        (if m ∈ r.movements.dedup ∧ orEmptyS r.date ≠ "" ∧
            String.mk ((orEmptyS r.date).data.take 4) = y then 1
         else 0) := by
  simp only [stepAgg]
  rw [foldl_stepMovement_movYearly _ _ _ (List.nodup_dedup _)]
  by_cases hd : orEmptyS r.date = ""
  · simp [hd]
  · rcases hiso : fromisoformat (orEmptyS r.date) with _ | ymd <;> simp [hd, hiso]

theorem foldl_stepAgg_yearly (l : List Rec) (st : AggState) (y : String) :
    (l.foldl stepAgg st).yearly y =
      st.yearly y + l.countP (fun r =>
        orEmptyS r.date ≠ "" ∧ String.mk ((orEmptyS r.date).data.take 4) = y) := by
  induction l generalizing st with
  | nil => simp
  | cons r t ih =>
    rw [List.foldl_cons, ih, stepAgg_yearly, List.countP_cons]
    by_cases hc : orEmptyS r.date ≠ "" ∧ String.mk ((orEmptyS r.date).data.take 4) = y <;>
      simp [hc] <;> omega

theorem foldl_stepAgg_weekday_sum (l : List Rec) (st : AggState) :
    (weekdayNames.map (l.foldl stepAgg st).weekday).sum =
      (weekdayNames.map st.weekday).sum + l.countP (fun r =>
        orEmptyS r.date ≠ "" ∧ (fromisoformat (orEmptyS r.date)).isSome = true) := by
  induction l generalizing st with
  | nil => simp
  | cons r t ih =>
    rw [List.foldl_cons, ih, stepAgg_weekday_sum, List.countP_cons]
    by_cases hc : orEmptyS r.date ≠ "" ∧ (fromisoformat (orEmptyS r.date)).isSome = true <;>
      simp [hc] <;> omega

theorem foldl_stepAgg_movDays (l : List Rec) (st : AggState) (m : String) :
    (l.foldl stepAgg st).movDays m =
      st.movDays m + l.countP (fun r => m ∈ r.movements.dedup) := by
  induction l generalizing st with
  | nil => simp
  | cons r t ih =>
    rw [List.foldl_cons, ih, stepAgg_movDays, List.countP_cons]
    by_cases hc : m ∈ r.movements.dedup <;> simp [hc] <;> omega

theorem foldl_stepAgg_movYearly (l : List Rec) (st : AggState) (m y : String) :
    (l.foldl stepAgg st).movYearly m y =
      st.movYearly m y + l.countP (fun r =>
        m ∈ r.movements.dedup ∧ orEmptyS r.date ≠ "" ∧
          String.mk ((orEmptyS r.date).data.take 4) = y) := by
  induction l generalizing st with
  | nil => simp
  | cons r t ih =>
    rw [List.foldl_cons, ih, stepAgg_movYearly, List.countP_cons]
    by_cases hc : m ∈ r.movements.dedup ∧ orEmptyS r.date ≠ "" ∧
        String.mk ((orEmptyS r.date).data.take 4) = y <;>
      simp [hc] <;> omega

theorem sum_map_add_nat {α : Type} (g h : α → Nat) (l : List α) :
    (l.map (fun y => g y + h y)).sum = (l.map g).sum + (l.map h).sum := by
  induction l with
  | nil => rfl
  | cons a t ih => simp [ih]; omega

theorem sum_map_indicator {α : Type} (p : α → Bool) (l : List α) :
    (l.map (fun y => if p y then 1 else 0)).sum = l.countP p := by
  induction l with
  | nil => rfl
  | cons a t ih =>
    rw [List.map_cons, List.sum_cons, ih, List.countP_cons]
    by_cases hp : p a <;> simp [hp] <;> omega

theorem countP_partition (p : Rec → Bool) (f : Rec → String) (ys : List String)
    (l : List Rec) :
    (ys.dedup.map (fun y => l.countP (fun x => p x && f x = y))).sum =
      l.countP (fun x => p x && decide (f x ∈ ys)) := by
  induction l with
  | nil => simp
  | cons x t ih =>
    simp only [List.countP_cons]
    rw [show (fun y => t.countP (fun x => p x && f x = y) +
        if (p x && decide (f x = y)) = true then 1 else 0) =
      (fun y => t.countP (fun x => p x && f x = y) +
        if (p x && decide (f x = y)) = true then 1 else 0) from rfl]
    rw [sum_map_add_nat (fun y => t.countP (fun x => p x && f x = y))
      (fun y => if (p x && decide (f x = y)) = true then 1 else 0) ys.dedup, ih]
    congr 1
    by_cases hp : p x = true
    · have h1 : (ys.dedup.map (fun y =>
          if (p x && decide (f x = y)) = true then 1 else 0)).sum =
          ys.dedup.countP (fun y => decide (f x = y)) := by
        rw [← sum_map_indicator (fun y => decide (f x = y)) ys.dedup]
        refine congrArg List.sum (List.map_congr_left (fun y _ => ?_))
        simp [hp]
      rw [h1]
      have h2 : ys.dedup.countP (fun y => decide (f x = y)) = List.count (f x) ys.dedup := by
        unfold List.count
        refine List.countP_congr (fun y _ => ?_)
        simp only [decide_eq_true_eq, beq_iff_eq]
        exact eq_comm
      rw [h2, List.count_dedup]
      by_cases hmem : f x ∈ ys <;> simp [hmem, hp]
    · have hp' : p x = false := by simpa using hp
      simp [hp']

/-- Amended claim C6: the per-weekday totals count exactly the records
whose date string parses as an ISO date, but the per-year totals count
every record with a non-empty date string, keyed by its first four
characters, so a record with a non-empty but unparseable date still
contributes to a year total while contributing to no weekday total. -/
theorem aggregate_totals (canonical : List Rec) :
    (∀ y, (aggregate canonical).yearly y =
        canonical.countP (fun r =>
          orEmptyS r.date ≠ "" ∧ String.mk ((orEmptyS r.date).data.take 4) = y)) ∧
    ((weekdayNames.map (aggregate canonical).weekday).sum =
      canonical.countP (fun r =>
        orEmptyS r.date ≠ "" ∧ (fromisoformat (orEmptyS r.date)).isSome = true)) := by
  constructor
  · intro y
    have h := foldl_stepAgg_yearly canonical initAgg y
    simpa [aggregate, initAgg] using h
  · have h := foldl_stepAgg_weekday_sum canonical initAgg
    simpa [aggregate, initAgg, weekdayNames] using h

/-- Record with a non-empty but unparseable date string. -/
def demoBadDateRec : Rec :=
  ⟨some 1, some "notadate", some "T", some "L", [], false, [], "", [], some 0, 1, some 1, []⟩

/-- Counterexample to claim C6 as stated: a record whose non-empty date
"notadate" does not parse as an ISO date still contributes to a per-year
total (under the key "nota"), although the claim says an unparseable date
contributes to no year total. -/
theorem aggregate_year_counterexample :
    (aggregate [demoBadDateRec]).yearly "nota" = 1 ∧
      fromisoformat "notadate" = none :=
  ⟨by decide, by decide⟩

/-- Record with a parseable date and one movement. -/
def demoMovRec : Rec :=
  ⟨some 1, some "2020-05-05", some "T", some "L", [], false, ["squat"], "", [],
   some 0, 1, some 1, []⟩

theorem aggregate_totals_witness :
    (weekdayNames.map (aggregate [demoMovRec]).weekday).sum =
      [demoMovRec].countP (fun r =>
        orEmptyS r.date ≠ "" ∧ (fromisoformat (orEmptyS r.date)).isSome = true) :=
  (aggregate_totals [demoMovRec]).2

/-- Claim C7: when every record's date is non-empty and parses as an ISO
date, the sum of a movement's per-year counts (over the distinct years of
the record set) equals the day-count paired with that movement in the
top-movements list. -/
theorem top_movements_year_sum (canonical : List Rec)
    (hdates : ∀ r ∈ canonical, orEmptyS r.date ≠ "" ∧
      (fromisoformat (orEmptyS r.date)).isSome = true) :
    ∀ m d, (m, d) ∈ top_movements canonical →
      (((canonical.map (fun r => String.mk ((orEmptyS r.date).data.take 4))).dedup).map
        ((aggregate canonical).movYearly m)).sum = d := by
  intro m d hmd
  have h1 : (m, d) ∈ (aggregate canonical).movKeys.map
      (fun k => (k, (aggregate canonical).movDays k)) :=
    List.mem_mergeSort.mp (List.mem_of_mem_take hmd)
  rcases List.mem_map.mp h1 with ⟨m', _, hm'⟩
  have hmeq : m' = m := (Prod.ext_iff.mp hm').1
  have hdeq : (aggregate canonical).movDays m' = d := (Prod.ext_iff.mp hm').2
  subst hmeq
  rw [← hdeq]
  have hdays : (aggregate canonical).movDays m' =
      canonical.countP (fun r => m' ∈ r.movements.dedup) := by
    have h := foldl_stepAgg_movDays canonical initAgg m'
    simpa [aggregate, initAgg] using h
  have hyearly : ∀ y, (aggregate canonical).movYearly m' y =
      canonical.countP (fun r =>
        (m' ∈ r.movements.dedup ∧ orEmptyS r.date ≠ "") ∧
          String.mk ((orEmptyS r.date).data.take 4) = y) := by
    intro y
    have h := foldl_stepAgg_movYearly canonical initAgg m' y
    rw [aggregate] at *
    rw [h]
    simp only [initAgg, Nat.zero_add]
    refine List.countP_congr (fun r _ => ?_)
    simp [and_assoc]
  rw [List.map_congr_left (fun y _ => hyearly y)]
  have hpart := countP_partition
    (fun r => decide (m' ∈ r.movements.dedup) && decide (orEmptyS r.date ≠ ""))
    (fun r => String.mk ((orEmptyS r.date).data.take 4))
    (canonical.map (fun r => String.mk ((orEmptyS r.date).data.take 4)))
    canonical
  have hshape : (canonical.map (fun r =>
      String.mk ((orEmptyS r.date).data.take 4))).dedup.map
        (fun y => canonical.countP (fun r =>
          (m' ∈ r.movements.dedup ∧ orEmptyS r.date ≠ "") ∧
            String.mk ((orEmptyS r.date).data.take 4) = y)) =
      (canonical.map (fun r =>
        String.mk ((orEmptyS r.date).data.take 4))).dedup.map
          (fun y => canonical.countP (fun r =>
            (decide (m' ∈ r.movements.dedup) && decide (orEmptyS r.date ≠ "")) &&
              String.mk ((orEmptyS r.date).data.take 4) = y)) := by
    refine List.map_congr_left (fun y _ => ?_)
    refine List.countP_congr (fun r _ => ?_)
    simp
  rw [hshape, hpart, hdays]
  refine List.countP_congr (fun r hr => ?_)
  rcases hdates r hr with ⟨hne, _⟩
  have hin : String.mk ((orEmptyS r.date).data.take 4) ∈
      canonical.map (fun r => String.mk ((orEmptyS r.date).data.take 4)) :=
    List.mem_map.mpr ⟨r, hr, rfl⟩
  simp [hne, hin]

theorem top_movements_year_sum_witness :
    (∀ r ∈ [demoMovRec], orEmptyS r.date ≠ "" ∧
        (fromisoformat (orEmptyS r.date)).isSome = true) ∧
      ("squat", 1) ∈ top_movements [demoMovRec] ∧
      ((([demoMovRec].map (fun r => String.mk ((orEmptyS r.date).data.take 4))).dedup).map
        ((aggregate [demoMovRec]).movYearly "squat")).sum = 1 :=
  ⟨by decide,
   by
     unfold top_movements
     rw [show ((aggregate [demoMovRec]).movKeys.map
       (fun k => (k, (aggregate [demoMovRec]).movDays k))) = [("squat", 1)] from by decide]
     rw [List.mergeSort_singleton]
     decide,
   top_movements_year_sum [demoMovRec] (by decide) "squat" 1
     (by
       unfold top_movements
       rw [show ((aggregate [demoMovRec]).movKeys.map
         (fun k => (k, (aggregate [demoMovRec]).movDays k))) = [("squat", 1)] from by decide]
       rw [List.mergeSort_singleton]
       decide)⟩

/-- Curated hero benchmark names of cfa_etl.named_workouts.HERO_NAMES. -/
def HERO_NAMES : List String :=
  ["murph", "dt", "chad", "holleyman", "badger", "nate", "randy", "griff",
   "hidalgo", "jerry", "bull", "glen", "josh", "michael", "whitten", "jt",
   "lumberjack 20", "victoria", "mcghee", "abbate", "white", "kalsu", "manion",
   "morrison", "tommy v", "coe", "wittman", "mccluskey", "nick", "small", "roy",
   "gator", "garrett", "carse", "riley", "danny", "lorenza", "zeitoun",
   "murphy", "ship", "hansel", "jared", "peggy", "rhodesian", "tk", "tyler",
   "wood", "ryan", "camelot", "helm", "brenton"]

/-- Curated girl benchmark names of cfa_etl.named_workouts.GIRL_NAMES. -/
def GIRL_NAMES : List String :=
  ["angie", "barbara", "chelsea", "diane", "elizabeth", "fran", "helen",
   "isabel", "jackie", "karen", "linda", "mary", "nancy", "annie", "christine",
   "eva", "gwen", "hope", "nicole", "cindy", "kelly", "lynne", "amanda",
   "maggie", "lila", "ingrid", "lyla", "grace", "tiff", "vera", "ariane"]

/-- Helper for titleCase: the flag records whether the previous character
was alphabetic. -/
def titleCaseAux : Bool → List Char → List Char
  | _, [] => []
  | prevAlpha, c :: cs =>
    if c.isAlpha then
      (if prevAlpha then c.toLower else c.toUpper) :: titleCaseAux true cs
    else c :: titleCaseAux false cs

/-- Python str.title on ASCII text: the first alphabetic character of each
alphabetic run is uppercased, the rest lowercased. -/
def titleCase (s : String) : String :=
  String.mk (titleCaseAux false s.data)

/-- Match a compiled name pattern at the head of the text: literal
characters match case-insensitively and each space in the name matches one
or more whitespace characters (the escaped-space to whitespace-plus
replacement of _compile_name_patterns).  Returns the rest of the text. -/
def matchNameAt : List Char → List Char → Option (List Char)
  | [], rest => some rest
  | ' ' :: ps, text =>
    match text with
    | c :: cs => if isSpaceChar c then matchNameAt ps (cs.dropWhile isSpaceChar) else none
    | [] => none
  | p :: ps, c :: cs => if c.toLower = p.toLower then matchNameAt ps cs else none
  | _ :: _, [] => none

/-- Whole-word search of a name pattern in the text: a word boundary, the
name (whitespace-flexible), and a word boundary. -/
def wholeWordSearch (name : List Char) (text : List Char) : Bool :=
  (List.range (text.length + 1)).any (fun i =>
    prevBoundary (text[i-1]?.filter (fun _ => i ≠ 0)) &&
    (match matchNameAt name (text.drop i) with
     | some rest => nonWordHead rest
     | none => false))

/-- Helper splitting a character sequence into maximal runs of characters
satisfying the predicate. -/
def splitRunsAux (keep : Char → Bool) : List Char → List Char → List (List Char)
  | [], acc => if acc.isEmpty then [] else [acc.reverse]
  | c :: cs, acc =>
    if keep c then splitRunsAux keep cs (c :: acc)
    else if acc.isEmpty then splitRunsAux keep cs []
    else acc.reverse :: splitRunsAux keep cs []

/-- Lowercase alphanumeric ASCII characters. -/
def isLowerAlnum (c : Char) : Bool :=
  ('a' ≤ c && c ≤ 'z') || ('0' ≤ c && c ≤ '9')

/-- Embedding of cfa_etl.named_workouts._normalize_name: lowercase, replace
runs of characters outside lowercase letters and digits with single spaces,
and strip (equivalently: join the alphanumeric runs with single spaces). -/
def normalize_name (s : String) : String :=
  String.mk (List.intercalate [' '] (splitRunsAux isLowerAlnum (lowerStr s.data) []))

/-- One occurrence entry of a named workout. -/
structure Entry where
  date : Option String
  title : Option String
  link : Option String
  summary : String
deriving DecidableEq

/-- The occurrence entry built from a record. -/
def entryOf (r : Rec) : Entry :=
  ⟨r.date, r.title, r.link, extract_rep_scheme r.components⟩

/-- Administrative headings ignored when collecting component names. -/
def nwIgnores : List (List Char) :=
  [strLit "training cycle", strLit "upcoming", strLit "schedule", strLit "news",
   strLit "notes", strLit "recap", strLit "tomorrow"]

/-- The lowercased, non-empty, non-administrative component headings of a
record. -/
def componentNames (r : Rec) : List String :=
  r.components.filterMap (fun comp =>
    let name := String.mk (lowerStr comp.component.data)
    if name = "" then none
    else if nwIgnores.any (fun ig => containsSub name.data ig) then none
    else some name)

/-- The murph rep-scheme requirement: the summary shows pull, push and
squat together, or a one-mile marker. -/
def murphSummaryOk (summary : String) : Bool :=
  let s := lowerStr summary.data
  (containsSub s (strLit "pull") && containsSub s (strLit "push") &&
    containsSub s (strLit "squat")) ||
  containsSub s (strLit "1 mile") || containsSub s (strLit "1-mile")

/-- Whole-word title hit of a name pattern on the lowercased title. -/
def titleHitB (lowname : String) (r : Rec) : Bool :=
  wholeWordSearch lowname.data (lowerStr (orEmptyS r.title).data)

/-- Heading hit: some normalized component name equals the normalized
(title-cased) name. -/
def compHitB (lowname : String) (r : Rec) : Bool :=
  (componentNames r).any (fun c => normalize_name c = normalize_name (titleCase lowname))

/-- The hero matching condition of the first per-record loop of
build_named_workouts: a title or heading hit, where a non-title murph hit
additionally requires the rep-scheme summary signature. -/
def heroMatchB (lowname : String) (r : Rec) : Bool :=
  if !(titleHitB lowname r || compHitB lowname r) then false
  else if normalize_name (titleCase lowname) = "murph" && !(titleHitB lowname r) then
    murphSummaryOk (extract_rep_scheme r.components)
  else true

/-- The re-check applied in the appending loop of build_named_workouts: a
murph entry is appended only when the summary signature holds (this check
has no title-hit exemption in the source). -/
def murphSecondCheck (lowname : String) (r : Rec) : Bool :=
  if normalize_name (titleCase lowname) = "murph" then
    murphSummaryOk (extract_rep_scheme r.components)
  else true

/-- The girl matching condition: a title or heading hit. -/
def girlMatchB (lowname : String) (r : Rec) : Bool :=
  titleHitB lowname r || compHitB lowname r

/-- The entries appended under a hero name by the per-record loops, in
record order. -/
def heroRawEntries (canonical : List Rec) (lowname : String) : List Entry :=
  canonical.filterMap (fun r =>
    if heroMatchB lowname r && murphSecondCheck lowname r then some (entryOf r) else none)

/-- The entries appended under a girl name, in record order. -/
def girlRawEntries (canonical : List Rec) (lowname : String) : List Entry :=
  canonical.filterMap (fun r =>
    if girlMatchB lowname r then some (entryOf r) else none)

/-- Entries of records whose lowercased title contains "murph" as a
substring (the final override block of build_named_workouts). -/
def murphTitleEntries (canonical : List Rec) : List Entry :=
  canonical.filterMap (fun r =>
    if containsSub (lowerStr (orEmptyS r.title).data) (strLit "murph") then
      some (entryOf r)
    else none)

/-- Hero hit-map lookup after the override: when any record's title
contains "murph" as a substring, the Murph entry list is replaced by
exactly those title matches. -/
def heroEntriesFor (canonical : List Rec) (lowname : String) : List Entry :=
  if titleCase lowname = "Murph" && !(murphTitleEntries canonical).isEmpty then
    murphTitleEntries canonical
  else heroRawEntries canonical lowname

/-- One registry item of a named workout. -/
structure NamedItem where
  name : String
  count : Nat
  latest_date : Option String
  latest_link : Option String
  occurrences : List Entry
deriving DecidableEq

/-- Comparison for sorting occurrence entries newest-first by
date-or-empty-string (a stable reverse sort). -/
def entryDateLE (a b : Entry) : Bool :=
  orEmptyS b.date ≤ orEmptyS a.date

/-- Build one registry item for a name: occurrences sorted newest-first,
with count and latest date and link. -/
def buildItem (entriesFor : String → List Entry) (lowname : String) : NamedItem :=
  let entries_sorted := (entriesFor lowname).mergeSort entryDateLE
  { name := titleCase lowname,
    count := entries_sorted.length,
    latest_date := match entries_sorted.head? with
      | some e => e.date
      | none => none,
    latest_link := match entries_sorted.head? with
      | some e => e.link
      | none => none,
    occurrences := entries_sorted }

/-- Comparison for the final registry ordering by descending count with
name as tie-break. -/
def itemLE (a b : NamedItem) : Bool :=
  b.count < a.count || (a.count = b.count && a.name ≤ b.name)

/-- Build a registry from a name list and a hit map: one item per name with
a non-empty entry list, sorted by descending count and name.  (The Python
dict holds its keys in first-insertion order; since the title-cased names
are distinct, the final sort is total and the resulting list does not
depend on that order, so the embedding enumerates keys in name-list
order.) -/
def buildRegistry (names : List String) (entriesFor : String → List Entry) :
    List NamedItem :=
  ((names.filter (fun n => !(entriesFor n).isEmpty)).map
    (fun n => buildItem entriesFor n)).mergeSort itemLE

/-- The two registries produced by build_named_workouts. -/
structure NamedRegistries where
  heroes : List NamedItem
  girls : List NamedItem
deriving DecidableEq

/-- Embedding of cfa_etl.named_workouts.build_named_workouts. -/
def build_named_workouts (canonical : List Rec) : NamedRegistries :=
  { heroes := buildRegistry HERO_NAMES (heroEntriesFor canonical),
    girls := buildRegistry GIRL_NAMES (girlRawEntries canonical) }

/-- The occurrence list registered under a name, empty when the registry
has no item of that name. -/
def occurrencesOf (registry : List NamedItem) (n : String) : List Entry :=
  match registry.find? (fun it => it.name = n) with
  | some it => it.occurrences
  | none => []

theorem occurrencesOf_buildRegistry (names : List String)
    (entriesFor : String → List Entry) (n : String)
    (hnodup : (names.map titleCase).Nodup) (e : Entry) :
    e ∈ occurrencesOf (buildRegistry names entriesFor) n ↔
      ∃ lowname ∈ names, titleCase lowname = n ∧ e ∈ entriesFor lowname := by
  constructor
  · intro hmem
    unfold occurrencesOf at hmem
    rcases hfind : (buildRegistry names entriesFor).find? (fun it => it.name = n) with _ | it
    · rw [hfind] at hmem
      simp at hmem
    · rw [hfind] at hmem
      have hname : it.name = n := by
        have := List.find?_some hfind
        simpa using this
      have hit : it ∈ buildRegistry names entriesFor := List.mem_of_find?_eq_some hfind
      unfold buildRegistry at hit
      rcases List.mem_map.mp (List.mem_mergeSort.mp hit) with ⟨ln, hln, hlneq⟩
      refine ⟨ln, (List.mem_filter.mp hln).1, ?_, ?_⟩
      · rw [← hname, ← hlneq]
        rfl
      · rw [← hlneq] at hmem
        exact List.mem_mergeSort.mp hmem
  · rintro ⟨ln, hln, htitle, he⟩
    have hne : ((entriesFor ln).isEmpty : Bool) = false := by
      rcases hcase : entriesFor ln with _ | ⟨a, t⟩
      · rw [hcase] at he
        simp at he
      · rfl
    have hlnf : ln ∈ names.filter (fun k => !(entriesFor k).isEmpty) :=
      List.mem_filter.mpr ⟨hln, by simp [hne]⟩
    have hitem : buildItem entriesFor ln ∈ buildRegistry names entriesFor := by
      unfold buildRegistry
      exact List.mem_mergeSort.mpr (List.mem_map_of_mem _ hlnf)
    have hpred : (fun it : NamedItem => decide (it.name = n)) (buildItem entriesFor ln) = true := by
      simp [buildItem, htitle]
    have hsome : ((buildRegistry names entriesFor).find?
        (fun it => it.name = n)).isSome = true :=
      List.find?_isSome.mpr ⟨buildItem entriesFor ln, hitem, hpred⟩
    rcases hfind : (buildRegistry names entriesFor).find? (fun it => it.name = n) with _ | it
    · rw [hfind] at hsome
      simp at hsome
    · unfold occurrencesOf
      rw [hfind]
      have hname : it.name = n := by
        have := List.find?_some hfind
        simpa using this
      have hit : it ∈ buildRegistry names entriesFor := List.mem_of_find?_eq_some hfind
      unfold buildRegistry at hit
      rcases List.mem_map.mp (List.mem_mergeSort.mp hit) with ⟨ln', hln', hln'eq⟩
      have htitle' : titleCase ln' = n := by
        rw [← hname, ← hln'eq]
        rfl
      have hlnln' : ln' = ln :=
        List.inj_on_of_nodup_map hnodup (List.mem_filter.mp hln').1 hln
          (htitle'.trans htitle.symm)
      rw [← hln'eq, hlnln']
      exact List.mem_mergeSort.mpr he

theorem heroMatch_murph_eq (ln : String) (r : Rec)
    (hn : normalize_name (titleCase ln) = "murph") :
    (heroMatchB ln r && murphSecondCheck ln r) =
      ((titleHitB ln r || compHitB ln r) &&
        murphSummaryOk (extract_rep_scheme r.components)) := by
  unfold heroMatchB murphSecondCheck
  by_cases ht : titleHitB ln r <;> by_cases hc : compHitB ln r <;>
    by_cases hs : murphSummaryOk (extract_rep_scheme r.components) <;>
      simp [hn, ht, hc, hs]

theorem heroMatch_nonmurph_eq (ln : String) (r : Rec)
    (hn : ¬(normalize_name (titleCase ln) = "murph")) :
    (heroMatchB ln r && murphSecondCheck ln r) =
      (titleHitB ln r || compHitB ln r) := by
  unfold heroMatchB murphSecondCheck
  by_cases ht : titleHitB ln r <;> by_cases hc : compHitB ln r <;> simp [hn, ht, hc]

theorem hero_norm_murph : ∀ ln ∈ HERO_NAMES,
    (normalize_name (titleCase ln) = "murph") ↔ (titleCase ln = "Murph") := by
  decide

theorem mem_heroEntriesFor (canonical : List Rec) (ln : String)
    (hln : ln ∈ HERO_NAMES) (e : Entry) :
    e ∈ heroEntriesFor canonical ln ↔
      ∃ r ∈ canonical, entryOf r = e ∧
        (if titleCase ln = "Murph" then
          (if murphTitleEntries canonical ≠ [] then
            containsSub (lowerStr (orEmptyS r.title).data) (strLit "murph") = true
          else (titleHitB ln r || compHitB ln r) = true ∧
            murphSummaryOk (extract_rep_scheme r.components) = true)
        else (titleHitB ln r || compHitB ln r) = true) := by
  have hmm : ∀ x : Entry, x ∈ murphTitleEntries canonical ↔
      ∃ r ∈ canonical, (if containsSub (lowerStr (orEmptyS r.title).data)
        (strLit "murph") = true then some (entryOf r) else none) = some x := by
    intro x
    unfold murphTitleEntries
    exact List.mem_filterMap
  have hraw : ∀ x : Entry, x ∈ heroRawEntries canonical ln ↔
      ∃ r ∈ canonical, (if (heroMatchB ln r && murphSecondCheck ln r) = true then
        some (entryOf r) else none) = some x := by
    intro x
    unfold heroRawEntries
    exact List.mem_filterMap
  by_cases hM : titleCase ln = "Murph"
  · by_cases hover : murphTitleEntries canonical ≠ []
    · have hfor : heroEntriesFor canonical ln = murphTitleEntries canonical := by
        unfold heroEntriesFor
        have hemp : ((murphTitleEntries canonical).isEmpty : Bool) = false := by
          rcases hcase : murphTitleEntries canonical with _ | ⟨a, t⟩
          · exact absurd hcase hover
          · rfl
        simp [hM, hemp]
      rw [hfor, hmm e]
      constructor
      · rintro ⟨r, hr, hfr⟩
        by_cases hc : containsSub (lowerStr (orEmptyS r.title).data) (strLit "murph") = true
        · rw [if_pos hc] at hfr
          exact ⟨r, hr, Option.some.inj hfr, by rw [if_pos hM, if_pos hover]; exact hc⟩
        · rw [if_neg hc] at hfr
          exact absurd hfr (by simp)
      · rintro ⟨r, hr, hre, hcond⟩
        rw [if_pos hM, if_pos hover] at hcond
        exact ⟨r, hr, by rw [if_pos hcond, hre]⟩
    · have hfor : heroEntriesFor canonical ln = heroRawEntries canonical ln := by
        unfold heroEntriesFor
        have hnil : murphTitleEntries canonical = [] := by
          by_contra hcon
          exact hover hcon
        simp [hnil]
      rw [hfor, hraw e]
      have hn : normalize_name (titleCase ln) = "murph" := (hero_norm_murph ln hln).mpr hM
      constructor
      · rintro ⟨r, hr, hfr⟩
        rw [heroMatch_murph_eq ln r hn] at hfr
        by_cases hc : ((titleHitB ln r || compHitB ln r) &&
            murphSummaryOk (extract_rep_scheme r.components)) = true
        · rw [if_pos hc] at hfr
          have hc2 := hc
          rw [Bool.and_eq_true] at hc2
          rcases hc2 with ⟨h1, h2⟩
          exact ⟨r, hr, Option.some.inj hfr, by rw [if_pos hM, if_neg hover]; exact ⟨h1, h2⟩⟩
        · rw [if_neg hc] at hfr
          exact absurd hfr (by simp)
      · rintro ⟨r, hr, hre, hcond⟩
        rw [if_pos hM, if_neg hover] at hcond
        refine ⟨r, hr, ?_⟩
        rw [heroMatch_murph_eq ln r hn,
          if_pos (show ((titleHitB ln r || compHitB ln r) &&
            murphSummaryOk (extract_rep_scheme r.components)) = true by
              rw [Bool.and_eq_true]; exact hcond), hre]
  · have hfor : heroEntriesFor canonical ln = heroRawEntries canonical ln := by
      unfold heroEntriesFor
      simp [hM]
    rw [hfor, hraw e]
    have hn : ¬(normalize_name (titleCase ln) = "murph") := fun hc =>
      hM ((hero_norm_murph ln hln).mp hc)
    constructor
    · rintro ⟨r, hr, hfr⟩
      rw [heroMatch_nonmurph_eq ln r hn] at hfr
      by_cases hc : (titleHitB ln r || compHitB ln r) = true
      · rw [if_pos hc] at hfr
        exact ⟨r, hr, Option.some.inj hfr, by rw [if_neg hM]; exact hc⟩
      · rw [if_neg hc] at hfr
        exact absurd hfr (by simp)
    · rintro ⟨r, hr, hre, hcond⟩
      rw [if_neg hM] at hcond
      refine ⟨r, hr, ?_⟩
      rw [heroMatch_nonmurph_eq ln r hn, if_pos hcond, hre]

theorem mem_girlRawEntries (canonical : List Rec) (ln : String) (e : Entry) :
    e ∈ girlRawEntries canonical ln ↔
      ∃ r ∈ canonical, entryOf r = e ∧ girlMatchB ln r = true := by
  unfold girlRawEntries
  rw [List.mem_filterMap]
  constructor
  · rintro ⟨r, hr, hfr⟩
    by_cases hc : girlMatchB ln r = true
    · rw [if_pos hc] at hfr
      exact ⟨r, hr, Option.some.inj hfr, hc⟩
    · rw [if_neg hc] at hfr
      exact absurd hfr (by simp)
  · rintro ⟨r, hr, hre, hcond⟩
    exact ⟨r, hr, by rw [if_pos hcond, hre]⟩

/-- Amended claim C5: for every hero name other than Murph, and for every
girl name, a record appears among the name's occurrences exactly when the
name's whole-word pattern matches the record's lowercased title or some
normalized non-administrative component heading equals the normalized
name.  For Murph: when at least one record's lowercased title contains
"murph" as a substring, the Murph occurrences are exactly the records
whose lowercased title contains that substring (whole-word, heading and
rep-scheme rules are bypassed); otherwise a record appears exactly when it
has a title or heading hit and its rep-scheme summary shows the
pull-push-squat triad or a one-mile marker (the summary requirement is
applied to title hits as well). -/
theorem build_named_workouts_spec (canonical : List Rec) (n : String) (e : Entry) :
    (e ∈ occurrencesOf (build_named_workouts canonical).heroes n ↔
      ∃ lowname ∈ HERO_NAMES, titleCase lowname = n ∧
        ∃ r ∈ canonical, entryOf r = e ∧
          (if titleCase lowname = "Murph" then
            (if murphTitleEntries canonical ≠ [] then
              containsSub (lowerStr (orEmptyS r.title).data) (strLit "murph") = true
            else (titleHitB lowname r || compHitB lowname r) = true ∧
              murphSummaryOk (extract_rep_scheme r.components) = true)
          else (titleHitB lowname r || compHitB lowname r) = true)) ∧
    (e ∈ occurrencesOf (build_named_workouts canonical).girls n ↔
      ∃ lowname ∈ GIRL_NAMES, titleCase lowname = n ∧
        ∃ r ∈ canonical, entryOf r = e ∧
          (titleHitB lowname r || compHitB lowname r) = true) := by
  have hndH : (HERO_NAMES.map titleCase).Nodup := by decide
  have hndG : (GIRL_NAMES.map titleCase).Nodup := by decide
  constructor
  · constructor
    · intro h
      rcases (occurrencesOf_buildRegistry HERO_NAMES (heroEntriesFor canonical) n
        hndH e).mp h with ⟨ln, hln, ht, he⟩
      exact ⟨ln, hln, ht, (mem_heroEntriesFor canonical ln hln e).mp he⟩
    · rintro ⟨ln, hln, ht, hcond⟩
      exact (occurrencesOf_buildRegistry HERO_NAMES (heroEntriesFor canonical) n
        hndH e).mpr ⟨ln, hln, ht, (mem_heroEntriesFor canonical ln hln e).mpr hcond⟩
  · constructor
    · intro h
      rcases (occurrencesOf_buildRegistry GIRL_NAMES (girlRawEntries canonical) n
        hndG e).mp h with ⟨ln, hln, ht, he⟩
      rcases (mem_girlRawEntries canonical ln e).mp he with ⟨r, hr, hre, hcond⟩
      exact ⟨ln, hln, ht, r, hr, hre, hcond⟩
    · rintro ⟨ln, hln, ht, r, hr, hre, hcond⟩
      exact (occurrencesOf_buildRegistry GIRL_NAMES (girlRawEntries canonical) n
        hndG e).mpr ⟨ln, hln, ht, (mem_girlRawEntries canonical ln e).mpr ⟨r, hr, hre, hcond⟩⟩

/-- Record whose title contains "murph" only as part of the word Murphy. -/
def murphyRec : Rec :=
  ⟨some 1, some "2020-01-01", some "Murphy Day", some "L", [], false, [], "", [],
   some 0, 1, some 1, []⟩

/-- Counterexample to claim C5 as stated: the record titled "Murphy Day"
appears among Murph's occurrences although the whole-word murph pattern
does not match its title and it has no component headings at all — the
final override block registers every record whose lowercased title merely
contains "murph" as a substring. -/
theorem named_workouts_counterexample :
    entryOf murphyRec ∈ occurrencesOf (build_named_workouts [murphyRec]).heroes "Murph" ∧
      titleHitB "murph" murphyRec = false ∧ componentNames murphyRec = [] := by
  refine ⟨?_, by decide, by decide⟩
  have hndH : (HERO_NAMES.map titleCase).Nodup := by decide
  exact (occurrencesOf_buildRegistry HERO_NAMES (heroEntriesFor [murphyRec]) "Murph"
    hndH (entryOf murphyRec)).mpr ⟨"murph", by decide, by decide, by decide⟩

/-- Record with the girl benchmark title Fran. -/
def franRec : Rec :=
  ⟨some 2, some "2020-01-02", some "Fran", some "L2", [], false, [], "", [],
   some 0, 1, some 1, []⟩

theorem build_named_workouts_spec_witness :
    entryOf franRec ∈ occurrencesOf (build_named_workouts [franRec]).girls "Fran" :=
  (build_named_workouts_spec [franRec] "Fran" (entryOf franRec)).2.mpr
    ⟨"fran", by decide, by decide, franRec, by decide, rfl, by decide⟩

/-- JSON-like values of a decoded oracle response. -/
inductive JVal where
  | null : JVal
  | bool : Bool → JVal
  | num : Int → JVal
  | str : String → JVal
  | list : List JVal → JVal
  | obj : List (String × JVal) → JVal

/-- A decoded JSON object: an association list of string keys (Python
dicts have no duplicate keys; updates replace the value in place). -/
abbrev JObj := List (String × JVal)

/-- Python obj.get(k) / k-in-obj on a decoded object. -/
def objGet (o : JObj) (k : String) : Option JVal :=
  (o.find? (fun p => p.1 = k)).map (fun p => p.2)

/-- Python obj[k] = v: replace in place, appending when the key is new. -/
def objSet (o : JObj) (k : String) (v : JVal) : JObj :=
  if (o.find? (fun p => p.1 = k)).isSome then
    o.map (fun p => if p.1 = k then (k, v) else p)
  else o ++ [(k, v)]

/-- Python truthiness of a decoded value. -/
def pyTruthy : JVal → Bool
  | .null => false
  | .bool b => b
  | .num n => n ≠ 0
  | .str s => s ≠ ""
  | .list xs => !xs.isEmpty
  | .obj kvs => !kvs.isEmpty

/-- Python iteration over a decoded value: list elements, string
characters (as one-character strings), object keys; other values are not
iterable. -/
def pyIter : JVal → Option (List JVal)
  | .list xs => some xs
  | .str s => some (s.data.map (fun c => JVal.str (String.mk [c])))
  | .obj kvs => some (kvs.map (fun p => JVal.str p.1))
  | _ => none

/-- Python list(x or []): empty for a falsy value, the element list for an
iterable, a TypeError otherwise. -/
def pyListOrEmpty (v : Option JVal) : Except String (List JVal) :=
  match v with
  | none => .ok []
  | some x =>
    if pyTruthy x then
      match pyIter x with
      | some l => .ok l
      | none => .error "TypeError"
    else .ok []

/-- Python str() of a decoded value.  Containers render to an abbreviated
form: downstream the result is only compared for equality with short
keyword strings, which no container rendering can equal. -/
def pyStr : JVal → String
  | .null => "None"
  | .bool true => "True"
  | .bool false => "False"
  | .num n => toString n
  | .str s => s
  | .list _ => "[...]"
  | .obj _ => "\x7b...\x7d"

/-- Python (x or "").strip() on an optional notes value: empty for a falsy
or missing value, the stripped string for a string, an AttributeError for
any other truthy value. -/
def pyNotesStr (v : Option JVal) : Except String String :=
  match v with
  | none => .ok ""
  | some x =>
    if pyTruthy x then
      match x with
      | .str s => .ok (String.mk (pyStrip s.data))
      | _ => .error "AttributeError"
    else .ok ""

/-- First-occurrence de-duplication helper with an explicit seen list. -/
def pyDedupAux (seen : List String) : List String → List String
  | [] => []
  | x :: xs => if x ∈ seen then pyDedupAux seen xs else x :: pyDedupAux (x :: seen) xs

/-- Python first-occurrence de-duplication of a string list. -/
def pyDedup (l : List String) : List String :=
  pyDedupAux [] l

/-- The required keys of an oracle response. -/
def requiredKeys : List String :=
  ["id", "date", "title", "link", "is_rest_day", "components", "component_tags",
   "format", "movements", "unmapped_movements", "notes"]

/-- The allowed component-tag vocabulary. -/
def allowed_tags : List String :=
  ["strength", "conditioning", "assistance", "partner", "floater_strength"]

/-- The format alias table, defaulting to the empty format. -/
def fmt_map (fmt : String) : String :=
  if fmt = "amrap" then "amrap"
  else if fmt = "for time" then "for time"
  else if fmt = "fortime" then "for time"
  else if fmt = "for_time" then "for time"
  else if fmt = "emom" then "emom"
  else if fmt = "interval" then "interval"
  else if fmt = "intervals" then "interval"
  else if fmt = "tabata" then "interval"
  else if fmt = "" then ""
  else if fmt = "none" then ""
  else if fmt = "n/a" then ""
  else ""

/-- The movement alias table mapping common alternative names to canonical
labels. -/
def alias_to_canonical (key : String) : Option String :=
  if key = "row" then some "row (erg)"
  else if key = "rowing" then some "row (erg)"
  else if key = "rower" then some "row (erg)"
  else if key = "erg" then some "row (erg)"
  else if key = "power snatch" then some "snatch"
  else if key = "hang power snatch" then some "snatch"
  else if key = "power clean" then some "clean"
  else if key = "hang power clean" then some "clean"
  else if key = "shoulder press" then some "strict press"
  else if key = "db bench" then some "bench press"
  else if key = "db bench press" then some "bench press"
  else if key = "dumbbell bench" then some "bench press"
  else if key = "dumbbell bench press" then some "bench press"
  else if key = "renegade row" then some "row (weighted)"
  else if key = "renegade rows" then some "row (weighted)"
  else none

/-- Shape check for one components entry: an object with component and
details keys. -/
def componentEntryOk : JVal → Bool
  | .obj kv => (objGet kv "component").isSome && (objGet kv "details").isSome
  | _ => false

/-- Alias-normalize the movements list: non-strings are dropped, strings
are looked up by their stripped lowercased form in the alias table and
replaced by the canonical label when found. -/
def normalizeMovements (ms : List JVal) : List String :=
  ms.filterMap (fun m =>
    match m with
    | .str s => some ((alias_to_canonical (String.mk (lowerStr (pyStrip s.data)))).getD s)
    | _ => none)

/-- Normalize the unmapped list: entries whose alias maps cleanly to an
allowed label move into the movements list (first component), the rest
stay unmapped (second component); non-strings are dropped. -/
def splitUnmapped (labels : List String) : List JVal → List String × List String
  | [] => ([], [])
  | m :: rest =>
    let p := splitUnmapped labels rest
    match m with
    | .str s =>
      match alias_to_canonical (String.mk (lowerStr (pyStrip s.data))) with
      | some mp =>
        if mp ≠ "" && decide (mp ∈ labels) then (mp :: p.1, p.2) else (p.1, s :: p.2)
      | none => (p.1, s :: p.2)
    | _ => p

/-- The fixed prefix of the coercion note. -/
def coercePhrase : List Char :=
  strLit "(Coerced unknown movements to unmapped:"

/-- The note text appended when unknown movements are coerced to
unmapped. -/
def coercedNote (notes0 : String) (unknown : List String) : String :=
  String.mk (pyStrip (notes0.data ++ (if notes0 = "" then [] else [' ']) ++
    coercePhrase ++ [' '] ++
    (String.intercalate ", " ((pyDedup unknown).mergeSort (fun a b => a ≤ b))).data ++
    [')']))

/-- The note text appended when floater-only movements are removed. -/
def removedNote (note : String) (removed : List String) : String :=
  String.mk (pyStrip (note.data ++ (if note = "" then [] else [' ']) ++
    strLit "(Removed floater-only movements: " ++
    (String.intercalate ", " removed).data ++ [')']))

/-- A components entry whose heading names a floater strength block. -/
def floaterPred : JVal → Bool
  | .obj kv =>
    match objGet kv "component" with
    | some (.str s) =>
      containsSub (lowerStr s.data) (strLit "floater") &&
        containsSub (lowerStr s.data) (strLit "strength")
    | _ => false
  | _ => false

/-- Python str(c.get("details") or "") on a components entry. -/
def detailsStr : JVal → String
  | .obj kv =>
    match objGet kv "details" with
    | some v => if pyTruthy v then pyStr v else ""
    | none => ""
  | _ => ""

/-- Final response object: the validated fields written back over the
input object. -/
def finalObj (obj : JObj) (tags : List String) (fmt : String)
    (movs unm : List String) (notes : JVal) : JObj :=
  objSet (objSet (objSet (objSet (objSet obj
    "component_tags" (.list (tags.map JVal.str)))
    "format" (.str fmt))
    "movements" (.list (movs.map JVal.str)))
    "unmapped_movements" (.list (unm.map JVal.str)))
    "notes" notes

/-- Embedding of cfa_etl.llm_tagging._validate_llm_result, parameterized
by the compiled movement-pattern library the source loads from
configuration for the floater rule.  Raising is modelled by the error
case; Python dynamic-typing failures on ill-typed values (iterating a
non-iterable, stripping a non-string) are modelled faithfully as
errors. -/
def validate_llm_result (compiled : List (String × List (String → Bool)))
    (movement_labels : List String) (obj : JObj) : Except String JObj :=
  if requiredKeys.any (fun k => (objGet obj k).isNone) then .error "Missing key"
  else
    match objGet obj "components" with
    | some (.list cs) =>
      if !(cs.all componentEntryOk) then
        .error "components entries must be objects with component/details"
      else
        (pyListOrEmpty (objGet obj "component_tags")).bind fun tagItems =>
          let tags := tagItems.filterMap (fun t =>
            match t with
            | .str s => if s ∈ allowed_tags then some s else none
            | _ => none)
          let fmt := fmt_map (String.mk (lowerStr (pyStrip (pyStr
            (match objGet obj "format" with
             | some v => if pyTruthy v then v else .str ""
             | none => .str "")).data)))
          (pyListOrEmpty (objGet obj "movements")).bind fun movItems =>
            (pyListOrEmpty (objGet obj "unmapped_movements")).bind fun unmItems =>
              let movements2 := normalizeMovements movItems ++
                (splitUnmapped movement_labels unmItems).1
              let unmapped2 := (splitUnmapped movement_labels unmItems).2
              let unknown := movements2.filter (fun m => decide (m ∉ movement_labels))
              (if unknown.isEmpty then
                Except.ok (movements2, unmapped2, (objGet obj "notes").getD JVal.null)
              else
                (pyNotesStr (objGet obj "notes")).map (fun notes0 =>
                  (movements2.filter (fun m => decide (m ∈ movement_labels)),
                   unmapped2 ++ unknown,
                   JVal.str (coercedNote notes0 unknown)))).bind fun st =>
                let movements3 := pyDedup st.1
                let unmapped3 := pyDedup (st.2.1.filter (fun m => m ≠ ""))
                let floater_components := cs.filter floaterPred
                if floater_components.isEmpty then
                  .ok (finalObj obj tags fmt movements3 unmapped3 st.2.2)
                else
                  let floater_text := String.intercalate " " (floater_components.map detailsStr)
                  let non_floater_text := String.intercalate " "
                    ((cs.filter (fun c => !floaterPred c)).map detailsStr)
                  let floater_movs := tag_movements
                    (String.mk (lowerStr floater_text.data)) compiled
                  let non_floater_movs := tag_movements
                    (String.mk (lowerStr non_floater_text.data)) compiled
                  let floater_only := floater_movs.filter
                    (fun m => decide (m ∉ non_floater_movs))
                  if floater_only.isEmpty then
                    .ok (finalObj obj tags fmt movements3 unmapped3 st.2.2)
                  else
                    let after := movements3.filter (fun m => decide (m ∉ floater_only))
                    let removed := ((pyDedup movements3).filter
                      (fun m => decide (m ∉ after))).mergeSort (fun a b => a ≤ b)
                    if removed.isEmpty then
                      .ok (finalObj obj tags fmt after unmapped3 st.2.2)
                    else
                      (pyNotesStr (some st.2.2)).map (fun note =>
                        finalObj obj tags fmt after unmapped3
                          (JVal.str (removedNote note removed)))
    | some _ => .error "components must be a list"
    | none => .error "components must be a list"

theorem head?_dropWhile (p : Char → Bool) (l : List Char) (c : Char)
    (h : (l.dropWhile p).head? = some c) : p c = false := by
  induction l with
  | nil => simp at h
  | cons a t ih =>
    by_cases hp : p a
    · rw [List.dropWhile_cons_of_pos hp] at h
      exact ih h
    · rw [List.dropWhile_cons_of_neg hp] at h
      simp at h
      rw [← h]
      simpa using hp

theorem getLast?_dropWhile (p : Char → Bool) (l : List Char)
    (h : l.dropWhile p ≠ []) : (l.dropWhile p).getLast? = l.getLast? := by
  induction l with
  | nil => simp at h
  | cons a t ih =>
    by_cases hp : p a
    · rw [List.dropWhile_cons_of_pos hp] at h ⊢
      rw [ih h]
      have ht : t ≠ [] := by
        intro hc
        rw [hc] at h
        simp at h
      rcases t with _ | ⟨b, u⟩
      · exact absurd rfl ht
      · simp
    · rw [List.dropWhile_cons_of_neg hp]

/-- A character list whose first and last characters (when present) are
not whitespace. -/
def Stripped (l : List Char) : Prop :=
  (∀ c, l.head? = some c → isSpaceChar c = false) ∧
  (∀ c, l.getLast? = some c → isSpaceChar c = false)

theorem dropWhile_eq_self_of_head (p : Char → Bool) (l : List Char)
    (h : ∀ c, l.head? = some c → p c = false) : l.dropWhile p = l := by
  rcases l with _ | ⟨a, t⟩
  · rfl
  · have := h a rfl
    rw [List.dropWhile_cons_of_neg (by simp [this])]

theorem pyStrip_of_stripped (l : List Char) (h : Stripped l) : pyStrip l = l := by
  unfold pyStrip stripBoth
  rw [dropWhile_eq_self_of_head _ _ h.1]
  rw [dropWhile_eq_self_of_head _ _ (by
    intro c hc
    rw [List.head?_reverse] at hc
    exact h.2 c hc)]
  exact List.reverse_reverse l

theorem stripped_pyStrip (l : List Char) : Stripped (pyStrip l) := by
  unfold pyStrip stripBoth
  constructor
  · intro c hc
    rw [List.head?_reverse] at hc
    have hne : (l.dropWhile isSpaceChar).reverse.dropWhile isSpaceChar ≠ [] := by
      intro hnil
      rw [hnil] at hc
      simp at hc
    rw [getLast?_dropWhile _ _ hne] at hc
    rw [List.getLast?_reverse] at hc
    exact head?_dropWhile _ _ c hc
  · intro c hc
    rw [List.getLast?_reverse] at hc
    exact head?_dropWhile _ _ c hc

theorem containsSub_infix (pre nd suf : List Char) :
    containsSub (pre ++ nd ++ suf) nd = true := by
  unfold containsSub
  rw [List.any_eq_true]
  refine ⟨pre.length, ?_, ?_⟩
  · rw [List.mem_range]
    simp
    omega
  · rw [List.append_assoc, List.drop_left]
    simp [List.isPrefixOf_iff_prefix]

theorem mem_pyDedupAux (seen l : List String) (x : String) :
    x ∈ pyDedupAux seen l ↔ x ∈ l ∧ x ∉ seen := by
  induction l generalizing seen with
  | nil => simp [pyDedupAux]
  | cons a t ih =>
    unfold pyDedupAux
    by_cases ha : a ∈ seen
    · rw [if_pos ha, ih]
      constructor
      · rintro ⟨h1, h2⟩
        exact ⟨List.mem_cons_of_mem a h1, h2⟩
      · rintro ⟨h1, h2⟩
        rcases List.mem_cons.mp h1 with h3 | h3
        · subst h3
          exact absurd ha h2
        · exact ⟨h3, h2⟩
    · rw [if_neg ha]
      constructor
      · intro h
        rcases List.mem_cons.mp h with h3 | h3
        · subst h3
          exact ⟨List.mem_cons_self _ _, ha⟩
        · rcases (ih (a :: seen)).mp h3 with ⟨h4, h5⟩
          refine ⟨List.mem_cons_of_mem a h4, fun hc => h5 (List.mem_cons_of_mem a hc)⟩
      · rintro ⟨h1, h2⟩
        rcases List.mem_cons.mp h1 with h3 | h3
        · subst h3
          exact List.mem_cons_self _ _
        · by_cases hxa : x = a
          · subst hxa
            exact List.mem_cons_self _ _
          · exact List.mem_cons_of_mem a ((ih (a :: seen)).mpr
              ⟨h3, fun hc => (List.mem_cons.mp hc).elim hxa h2⟩)

theorem mem_pyDedup (l : List String) (x : String) : x ∈ pyDedup l ↔ x ∈ l := by
  unfold pyDedup
  rw [mem_pyDedupAux]
  simp

theorem find?_map_replace_same (o : JObj) (k : String) (v : JVal)
    (hfind : (List.find? (fun p => p.1 = k) o).isSome = true) :
    List.find? (fun p => p.1 = k)
      (o.map (fun p => if p.1 = k then (k, v) else p)) = some (k, v) := by
  induction o with
  | nil => simp at hfind
  | cons p t ih =>
    by_cases hp : p.1 = k
    · simp only [List.map_cons, hp, if_true]
      rw [List.find?_cons_of_pos _ (by simp)]
    · simp only [List.map_cons, hp, if_false]
      rw [List.find?_cons_of_neg _ (by simpa using hp)]
      rw [List.find?_cons_of_neg _ (by simpa using hp)] at hfind
      exact ih hfind

theorem find?_map_replace_other (o : JObj) (k k' : String) (v : JVal) (h : k' ≠ k) :
    List.find? (fun p => p.1 = k')
      (o.map (fun p => if p.1 = k then (k, v) else p)) =
      List.find? (fun p => p.1 = k') o := by
  induction o with
  | nil => rfl
  | cons p t ih =>
    by_cases hp : p.1 = k
    · simp only [List.map_cons, hp, if_true]
      rw [List.find?_cons_of_neg _ (by simpa using Ne.symm h),
        List.find?_cons_of_neg _ (by rw [hp]; simpa using Ne.symm h)]
      exact ih
    · simp only [List.map_cons, hp, if_false]
      by_cases hp' : p.1 = k'
      · rw [List.find?_cons_of_pos _ (by simpa using hp'),
          List.find?_cons_of_pos _ (by simpa using hp')]
      · rw [List.find?_cons_of_neg _ (by simpa using hp'),
          List.find?_cons_of_neg _ (by simpa using hp')]
        exact ih

theorem objGet_objSet_same (o : JObj) (k : String) (v : JVal) :
    objGet (objSet o k v) k = some v := by
  unfold objSet
  split
  · next hfind =>
    unfold objGet
    rw [find?_map_replace_same o k v hfind]
    rfl
  · next hfind =>
    unfold objGet
    rw [List.find?_append]
    have h1 : o.find? (fun p => p.1 = k) = none :=
      Option.not_isSome_iff_eq_none.mp hfind
    rw [h1]
    simp [List.find?]

theorem objGet_objSet_other (o : JObj) (k k' : String) (v : JVal) (h : k' ≠ k) :
    objGet (objSet o k v) k' = objGet o k' := by
  unfold objSet
  split
  · unfold objGet
    rw [find?_map_replace_other o k k' v h]
  · unfold objGet
    rw [List.find?_append]
    have h2 : List.find? (fun p => p.1 = k') [(k, v)] = none := by
      simp [List.find?, Ne.symm h]
    rw [h2]
    simp

theorem finalObj_movements (obj : JObj) (tags : List String) (fmt : String)
    (movs unm : List String) (notes : JVal) :
    objGet (finalObj obj tags fmt movs unm notes) "movements" =
      some (.list (movs.map JVal.str)) := by
  unfold finalObj
  rw [objGet_objSet_other _ _ _ _ (by decide), objGet_objSet_other _ _ _ _ (by decide),
    objGet_objSet_same]

theorem finalObj_unmapped (obj : JObj) (tags : List String) (fmt : String)
    (movs unm : List String) (notes : JVal) :
    objGet (finalObj obj tags fmt movs unm notes) "unmapped_movements" =
      some (.list (unm.map JVal.str)) := by
  unfold finalObj
  rw [objGet_objSet_other _ _ _ _ (by decide), objGet_objSet_same]

theorem finalObj_notes (obj : JObj) (tags : List String) (fmt : String)
    (movs unm : List String) (notes : JVal) :
    objGet (finalObj obj tags fmt movs unm notes) "notes" = some notes := by
  unfold finalObj
  rw [objGet_objSet_same]

theorem pyNotesStr_str (s : String) :
    pyNotesStr (some (.str s)) = .ok (String.mk (pyStrip s.data)) := by
  unfold pyNotesStr
  by_cases h : s = ""
  · subst h
    simp [pyTruthy]
    rfl
  · simp [pyTruthy, h]

theorem normalizeMovements_map_str (ms : List String) :
    normalizeMovements (ms.map JVal.str) =
      ms.map (fun s =>
        (alias_to_canonical (String.mk (lowerStr (pyStrip s.data)))).getD s) := by
  induction ms with
  | nil => rfl
  | cons a t ih => simp [normalizeMovements] at ih ⊢; exact ih

theorem containsSub_exists (l n : List Char) (h : containsSub l n = true) :
    ∃ pre suf, l = pre ++ n ++ suf := by
  unfold containsSub at h
  rw [List.any_eq_true] at h
  rcases h with ⟨i, _, hp⟩
  rw [List.isPrefixOf_iff_prefix] at hp
  rcases hp with ⟨suf, hsuf⟩
  exact ⟨l.take i, suf, by rw [List.append_assoc, hsuf, List.take_append_drop]⟩

theorem head?_append_left {l l' : List Char} {c : Char} (h : l.head? = some c) :
    (l ++ l').head? = some c := by
  rw [List.head?_append, h]
  rfl

theorem getLast?_append_right {l l' : List Char} {c : Char} (h : l'.getLast? = some c) :
    (l ++ l').getLast? = some c := by
  rw [List.getLast?_append, h]
  rfl

theorem stripped_empty : Stripped [] := by
  constructor <;> intro c hc <;> simp at hc

theorem coercePhrase_head : coercePhrase.head? = some '(' := rfl

theorem coercedNote_contains (notes0 : String) (hstr : Stripped notes0.data)
    (unknown : List String) :
    containsSub (coercedNote notes0 unknown).data coercePhrase = true ∧
      Stripped (coercedNote notes0 unknown).data := by
  unfold coercedNote
  refine ⟨?_, stripped_pyStrip _⟩
  set J := (String.intercalate ", " ((pyDedup unknown).mergeSort (fun a b => a ≤ b))).data
    with hJ
  set sep := (if notes0 = "" then ([] : List Char) else [' ']) with hsep
  have hS : Stripped (notes0.data ++ sep ++ coercePhrase ++ [' '] ++ J ++ [')']) := by
    constructor
    · intro c hcc
      simp only [List.append_assoc] at hcc
      by_cases hn : notes0 = ""
      · have hd : notes0.data = [] := by simp [hn]
        rw [hd] at hcc
        rw [hsep] at hcc
        simp only [hn, if_true, List.nil_append] at hcc
        rw [head?_append_left coercePhrase_head] at hcc
        cases hcc
        decide
      · rcases hd : notes0.data with _ | ⟨a, t⟩
        · exact absurd (String.ext hd) hn
        · rw [hd] at hcc
          simp only [List.cons_append, List.head?_cons] at hcc
          cases hcc
          exact hstr.1 c (by rw [hd]; rfl)
    · intro c hcc
      simp only [List.append_assoc] at hcc
      rw [getLast?_append_right (getLast?_append_right (getLast?_append_right
        (getLast?_append_right (getLast?_append_right
          (by decide : ([')'] : List Char).getLast? = some ')')))))] at hcc
      cases hcc
      decide
  rw [pyStrip_of_stripped _ hS]
  rw [show notes0.data ++ sep ++ coercePhrase ++ [' '] ++ J ++ [')'] =
    (notes0.data ++ sep) ++ coercePhrase ++ ([' '] ++ J ++ [')']) by
      simp [List.append_assoc]]
  exact containsSub_infix _ coercePhrase _

theorem removedNote_contains (note : String) (removed : List String)
    (hc : containsSub note.data coercePhrase = true) (hstr : Stripped note.data) :
    containsSub (removedNote note removed).data coercePhrase = true := by
  unfold removedNote
  rcases containsSub_exists note.data coercePhrase hc with ⟨pre, suf, hdecomp⟩
  have hnotenil : note.data ≠ [] := by
    intro hnil
    rw [hnil] at hdecomp
    have hlen := congrArg List.length hdecomp
    have h39 : coercePhrase.length = 39 := rfl
    simp [List.length_append, h39] at hlen
    omega
  set tl := (if note = "" then ([] : List Char) else [' ']) ++
    strLit "(Removed floater-only movements: " ++
    (String.intercalate ", " removed).data ++ [')'] with htl
  have hS : Stripped (note.data ++ (if note = "" then ([] : List Char) else [' ']) ++
      strLit "(Removed floater-only movements: " ++
      (String.intercalate ", " removed).data ++ [')']) := by
    constructor
    · intro c hcc
      simp only [List.append_assoc] at hcc
      rcases hd : note.data with _ | ⟨a, t⟩
      · exact absurd hd hnotenil
      · rw [hd] at hcc
        simp only [List.cons_append, List.head?_cons] at hcc
        cases hcc
        exact hstr.1 c (by rw [hd]; rfl)
    · intro c hcc
      simp only [List.append_assoc] at hcc
      rw [getLast?_append_right (getLast?_append_right (getLast?_append_right
        (getLast?_append_right
          (by decide : ([')'] : List Char).getLast? = some ')'))))] at hcc
      cases hcc
      decide
  rw [pyStrip_of_stripped _ hS]
  rw [show note.data ++ (if note = "" then ([] : List Char) else [' ']) ++
      strLit "(Removed floater-only movements: " ++
      (String.intercalate ", " removed).data ++ [')'] =
    pre ++ coercePhrase ++ (suf ++ ((if note = "" then ([] : List Char) else [' ']) ++
      strLit "(Removed floater-only movements: " ++
      (String.intercalate ", " removed).data ++ [')'])) by
      rw [hdecomp]
      simp [List.append_assoc]]
  exact containsSub_infix pre coercePhrase _

/-- A well-typed response per the oracle contract of the specification:
component_tags is iterable when truthy, movements and unmapped_movements
are string lists or falsy, notes is a string or falsy. -/
def WellTypedResp (obj : JObj) : Prop :=
  (∀ v, objGet obj "component_tags" = some v →
    pyTruthy v = true → (pyIter v).isSome = true) ∧
  (∀ v, objGet obj "movements" = some v →
    (∃ ss : List String, v = .list (ss.map JVal.str)) ∨ pyTruthy v = false) ∧
  (∀ v, objGet obj "unmapped_movements" = some v →
    (∃ ss : List String, v = .list (ss.map JVal.str)) ∨ pyTruthy v = false) ∧
  (∀ v, objGet obj "notes" = some v →
    (∃ s, v = JVal.str s) ∨ pyTruthy v = false)

/-- Whether a validation run succeeded (no exception raised). -/
def resultOk : Except String JObj → Bool
  | .ok _ => true
  | .error _ => false

/-- The components value is a list whose entries all pass the shape
check. -/
def componentsOk (obj : JObj) : Bool :=
  match objGet obj "components" with
  | some (.list cs) => cs.all componentEntryOk
  | _ => false

theorem except_bind_ok {α β : Type} (a : α) (f : α → Except String β) :
    Except.bind (Except.ok a) f = f a := rfl

theorem except_bind_error {α β : Type} (e : String) (f : α → Except String β) :
    Except.bind (Except.error e) f = Except.error e := rfl

theorem except_map_ok {α β : Type} (a : α) (f : α → β) :
    Except.map f (.ok a : Except String α) = Except.ok (f a) := rfl

theorem except_map_error {α β : Type} (e : String) (f : α → β) :
    Except.map f (.error e : Except String α) = Except.error e := rfl

theorem pyListOrEmpty_strList (ss : List String) :
    pyListOrEmpty (some (.list (ss.map JVal.str))) = .ok (ss.map JVal.str) := by
  rcases ss with _ | ⟨a, t⟩ <;> simp [pyListOrEmpty, pyTruthy, pyIter]

theorem pyListOrEmpty_falsy (x : JVal) (h : pyTruthy x = false) :
    pyListOrEmpty (some x) = .ok [] := by
  simp [pyListOrEmpty, h]

theorem pyListOrEmpty_ok_iter (v : Option JVal)
    (h : ∀ x, v = some x → pyTruthy x = true → (pyIter x).isSome = true) :
    ∃ l, pyListOrEmpty v = .ok l := by
  rcases v with _ | x
  · exact ⟨[], rfl⟩
  · by_cases ht : pyTruthy x = true
    · have := h x rfl ht
      rcases hi : pyIter x with _ | l
      · rw [hi] at this
        simp at this
      · exact ⟨l, by simp [pyListOrEmpty, ht, hi]⟩
    · exact ⟨[], by simp [pyListOrEmpty, ht]⟩

theorem pyNotesStr_ok_of (v : Option JVal)
    (h : ∀ x, v = some x → (∃ s, x = JVal.str s) ∨ pyTruthy x = false) :
    ∃ s, pyNotesStr v = .ok s := by
  rcases v with _ | x
  · exact ⟨"", rfl⟩
  · rcases h x rfl with ⟨s, rfl⟩ | hf
    · exact ⟨_, pyNotesStr_str s⟩
    · exact ⟨"", by simp [pyNotesStr, hf]⟩

theorem pyNotesStr_stripped (v : Option JVal) (s : String)
    (h : pyNotesStr v = .ok s) : Stripped s.data := by
  rcases v with _ | x
  · cases h
    exact stripped_empty
  · by_cases ht : pyTruthy x = true
    · simp only [pyNotesStr, ht, if_true] at h
      rcases x with _ | _ | _ | t | _ | _ <;> simp at h
      rw [← h]
      exact stripped_pyStrip t.data
    · simp only [pyNotesStr, ht, if_false] at h
      cases h
      exact stripped_empty

theorem validate_ok_of (compiled : List (String × List (String → Bool)))
    (labels : List String) (obj : JObj) (hwt : WellTypedResp obj)
    (hreq : requiredKeys.any (fun k => (objGet obj k).isNone) = false)
    (hcomp : componentsOk obj = true) :
    resultOk (validate_llm_result compiled labels obj) = true := by
  obtain ⟨hct0, hmv0, hum0, hns0⟩ := hwt
  rcases hob : objGet obj "components" with _ | v
  · simp [componentsOk, hob] at hcomp
  rcases v with _ | b | n | s | cs | kvs
  · simp [componentsOk, hob] at hcomp
  · simp [componentsOk, hob] at hcomp
  · simp [componentsOk, hob] at hcomp
  · simp [componentsOk, hob] at hcomp
  case some.obj => simp [componentsOk, hob] at hcomp
  case some.list =>
    simp only [componentsOk, hob] at hcomp
    obtain ⟨tagItems, hct⟩ := pyListOrEmpty_ok_iter _ hct0
    have hmvE : ∃ l, pyListOrEmpty (objGet obj "movements") = .ok l := by
      rcases hg : objGet obj "movements" with _ | w
      · exact ⟨[], rfl⟩
      · rcases hmv0 w hg with ⟨ss, rfl⟩ | hf
        · exact ⟨_, pyListOrEmpty_strList ss⟩
        · exact ⟨[], pyListOrEmpty_falsy w hf⟩
    obtain ⟨movItems, hmv⟩ := hmvE
    have humE : ∃ l, pyListOrEmpty (objGet obj "unmapped_movements") = .ok l := by
      rcases hg : objGet obj "unmapped_movements" with _ | w
      · exact ⟨[], rfl⟩
      · rcases hum0 w hg with ⟨ss, rfl⟩ | hf
        · exact ⟨_, pyListOrEmpty_strList ss⟩
        · exact ⟨[], pyListOrEmpty_falsy w hf⟩
    obtain ⟨unmItems, hum⟩ := humE
    unfold validate_llm_result
    rw [if_neg (by simp [hreq])]
    simp only [hob]
    rw [if_neg (by simp [hcomp])]
    simp only [hct, hmv, hum, except_bind_ok]
    split
    · rw [except_bind_ok]
      split
      · rfl
      split
      · rfl
      split
      · rfl
      have hnsE : ∃ t, pyNotesStr (some ((objGet obj "notes").getD JVal.null)) =
          .ok t := by
        rcases hg : objGet obj "notes" with _ | w
        · exact ⟨"", rfl⟩
        · rw [Option.getD_some]
          exact pyNotesStr_ok_of (some w) (fun x hx => by cases hx; exact hns0 w hg)
      obtain ⟨t, hns⟩ := hnsE
      rw [hns]
      rfl
    · obtain ⟨ns0, hns⟩ := pyNotesStr_ok_of (objGet obj "notes") hns0
      rw [hns, except_map_ok, except_bind_ok]
      split
      · rfl
      split
      · rfl
      split
      · rfl
      rw [pyNotesStr_str]
      rfl

theorem isEmpty_false_of_mem {α : Type} {l : List α} {x : α} (h : x ∈ l) :
    l.isEmpty = false := by
  rcases l with _ | ⟨a, t⟩
  · simp at h
  · rfl

theorem validate_relocates (compiled : List (String × List (String → Bool)))
    (labels : List String) (obj res : JObj) (ms : List String) (s : String)
    (h : validate_llm_result compiled labels obj = .ok res)
    (hms : objGet obj "movements" = some (.list (ms.map JVal.str)))
    (hsm : s ∈ ms) (m' : String)
    (hm' : m' = (alias_to_canonical (String.mk (lowerStr (pyStrip s.data)))).getD s)
    (hout : m' ∉ labels) (hne : m' ≠ "") :
    (∃ M : List String,
      objGet res "movements" = some (.list (M.map JVal.str)) ∧ m' ∉ M) ∧
    (∃ U : List String,
      objGet res "unmapped_movements" = some (.list (U.map JVal.str)) ∧ m' ∈ U) ∧
    (∃ ns : String, objGet res "notes" = some (.str ns) ∧
      containsSub ns.data coercePhrase = true) := by
  unfold validate_llm_result at h
  by_cases hreq : requiredKeys.any (fun k => (objGet obj k).isNone) = true
  · rw [if_pos hreq] at h
    simp at h
  rw [if_neg hreq] at h
  rcases hob : objGet obj "components" with _ | v
  · simp only [hob] at h
    simp at h
  rcases v with _ | b | n | s2 | cs | kvs
  · simp only [hob] at h
    simp at h
  · simp only [hob] at h
    simp at h
  · simp only [hob] at h
    simp at h
  · simp only [hob] at h
    simp at h
  case neg.some.obj =>
    simp only [hob] at h
    simp at h
  case neg.some.list =>
  simp only [hob] at h
  by_cases hall : cs.all componentEntryOk = true
  · rw [if_neg (by simp [hall])] at h
    rcases hct : pyListOrEmpty (objGet obj "component_tags") with e | tagItems
    · simp only [hct, except_bind_error] at h
      simp at h
    simp only [hct, except_bind_ok] at h
    simp only [hms, pyListOrEmpty_strList, except_bind_ok] at h
    rcases hum : pyListOrEmpty (objGet obj "unmapped_movements") with e | unmItems
    · simp only [hum, except_bind_error] at h
      simp at h
    simp only [hum, except_bind_ok] at h
    have hm2 : m' ∈ normalizeMovements (List.map JVal.str ms) ++
        (splitUnmapped labels unmItems).1 := by
      apply List.mem_append_left
      rw [normalizeMovements_map_str, hm']
      exact List.mem_map_of_mem _ hsm
    have hunk : m' ∈ List.filter (fun m => decide (m ∉ labels))
        (normalizeMovements (List.map JVal.str ms) ++
          (splitUnmapped labels unmItems).1) := by
      rw [List.mem_filter]
      exact ⟨hm2, by simpa using hout⟩
    have hne2 := isEmpty_false_of_mem hunk
    rw [if_neg (by rw [hne2]; simp)] at h
    rcases hns : pyNotesStr (objGet obj "notes") with e | notes0
    · simp only [hns, except_map_error, except_bind_error] at h
      simp at h
    simp only [hns, except_map_ok, except_bind_ok] at h
    have hstr0 : Stripped notes0.data := pyNotesStr_stripped _ _ hns
    have hcc := coercedNote_contains notes0 hstr0
      (List.filter (fun m => decide (m ∉ labels))
        (normalizeMovements (List.map JVal.str ms) ++
          (splitUnmapped labels unmItems).1))
    have hnotin : m' ∉ pyDedup (List.filter (fun m => decide (m ∈ labels))
        (normalizeMovements (List.map JVal.str ms) ++
          (splitUnmapped labels unmItems).1)) := by
      intro hc
      rw [mem_pyDedup, List.mem_filter] at hc
      exact hout (by simpa using hc.2)
    have hinU : m' ∈ pyDedup (List.filter (fun m => decide (m ≠ ""))
        ((splitUnmapped labels unmItems).2 ++
          List.filter (fun m => decide (m ∉ labels))
            (normalizeMovements (List.map JVal.str ms) ++
              (splitUnmapped labels unmItems).1))) := by
      rw [mem_pyDedup, List.mem_filter]
      exact ⟨List.mem_append_right _ hunk, by simpa using hne⟩
    split at h
    · cases h
      exact ⟨⟨_, finalObj_movements _ _ _ _ _ _, hnotin⟩,
        ⟨_, finalObj_unmapped _ _ _ _ _ _, hinU⟩,
        ⟨_, finalObj_notes _ _ _ _ _ _, hcc.1⟩⟩
    split at h
    · cases h
      exact ⟨⟨_, finalObj_movements _ _ _ _ _ _, hnotin⟩,
        ⟨_, finalObj_unmapped _ _ _ _ _ _, hinU⟩,
        ⟨_, finalObj_notes _ _ _ _ _ _, hcc.1⟩⟩
    split at h
    · cases h
      refine ⟨⟨_, finalObj_movements _ _ _ _ _ _, ?_⟩,
        ⟨_, finalObj_unmapped _ _ _ _ _ _, hinU⟩,
        ⟨_, finalObj_notes _ _ _ _ _ _, hcc.1⟩⟩
      intro hc
      exact hnotin (List.mem_of_mem_filter hc)
    · rw [pyNotesStr_str, except_map_ok] at h
      cases h
      have hnd : (String.mk (pyStrip (coercedNote notes0 _).data)).data =
          (coercedNote notes0 (List.filter (fun m => decide (m ∉ labels))
            (normalizeMovements (List.map JVal.str ms) ++
              (splitUnmapped labels unmItems).1))).data :=
        pyStrip_of_stripped _ hcc.2
      refine ⟨⟨_, finalObj_movements _ _ _ _ _ _, ?_⟩,
        ⟨_, finalObj_unmapped _ _ _ _ _ _, hinU⟩,
        ⟨_, finalObj_notes _ _ _ _ _ _, ?_⟩⟩
      · intro hc
        exact hnotin (List.mem_of_mem_filter hc)
      · apply removedNote_contains
        · rw [hnd]
          exact hcc.1
        · rw [hnd]
          exact hcc.2
  · have hallf : cs.all componentEntryOk = false := by
      revert hall
      cases cs.all componentEntryOk <;> simp
    rw [if_pos (by simp [hallf])] at h
    simp at h

theorem validate_error_of (compiled : List (String × List (String → Bool)))
    (labels : List String) (obj : JObj)
    (h : (requiredKeys.any (fun k => (objGet obj k).isNone) ||
      !componentsOk obj) = true) :
    resultOk (validate_llm_result compiled labels obj) = false := by
  unfold validate_llm_result
  by_cases hreq : requiredKeys.any (fun k => (objGet obj k).isNone) = true
  · rw [if_pos hreq]
    rfl
  · rw [if_neg hreq]
    have hco : componentsOk obj = false := by
      rw [Bool.or_eq_true] at h
      rcases h with h | h
      · exact absurd h hreq
      · revert h
        cases componentsOk obj <;> simp
    rcases hob : objGet obj "components" with _ | v
    · simp only [hob]
      rfl
    rcases v with _ | b | n | s2 | cs | kvs
    · simp only [hob]
      rfl
    · simp only [hob]
      rfl
    · simp only [hob]
      rfl
    · simp only [hob]
      rfl
    case neg.some.obj =>
      simp only [hob]
      rfl
    case neg.some.list =>
      simp only [componentsOk, hob] at hco
      simp only [hob]
      rw [if_pos (by simp [hco])]
      rfl

/-- C8: For a response whose remaining fields are well-typed per the
oracle contract, validation rejects exactly when a required key is absent
or the components value fails the list-of-objects shape check (in
particular a response missing only notes is rejected); and every
movements label whose alias-normalized form is a non-empty string outside
the canonical label set ends up in unmapped_movements, is absent from
movements, and the returned notes string carries the coercion note. -/
theorem validate_spec (compiled : List (String × List (String → Bool)))
    (labels : List String) (obj : JObj) (hwt : WellTypedResp obj) :
    (resultOk (validate_llm_result compiled labels obj) = false ↔
      (requiredKeys.any (fun k => (objGet obj k).isNone) ||
        !componentsOk obj) = true) ∧
    (∀ (res : JObj) (ms : List String) (s m' : String),
      validate_llm_result compiled labels obj = .ok res →
      objGet obj "movements" = some (.list (ms.map JVal.str)) → s ∈ ms →
      m' = (alias_to_canonical (String.mk (lowerStr (pyStrip s.data)))).getD s →
      m' ∉ labels → m' ≠ "" →
      (∃ M : List String,
        objGet res "movements" = some (.list (M.map JVal.str)) ∧ m' ∉ M) ∧
      (∃ U : List String,
        objGet res "unmapped_movements" = some (.list (U.map JVal.str)) ∧ m' ∈ U) ∧
      (∃ ns : String, objGet res "notes" = some (.str ns) ∧
        containsSub ns.data coercePhrase = true)) := by
  constructor
  · constructor
    · intro hrej
      by_contra hcon
      have h1 : requiredKeys.any (fun k => (objGet obj k).isNone) = false := by
        revert hcon
        cases requiredKeys.any (fun k => (objGet obj k).isNone) <;> simp
      have h2 : componentsOk obj = true := by
        revert hcon
        cases componentsOk obj <;> simp [h1]
      have hok := validate_ok_of compiled labels obj hwt h1 h2
      rw [hok] at hrej
      cases hrej
    · exact validate_error_of compiled labels obj
  · intro res ms s m' h hms hsm hm' hout hne
    exact validate_relocates compiled labels obj res ms s h hms hsm m' hm' hout hne

/-- A small canonical label set for concrete validation runs. -/
def demoLabels : List String := ["squat", "run"]

/-- A response carrying every required key whose components value is a
number rather than a list. -/
def demoBadResp : JObj :=
  [("id", .num 1), ("date", .str "2024-01-01"), ("title", .str "W"),
   ("link", .str "L"), ("is_rest_day", .bool false), ("components", .num 3),
   ("component_tags", .list []), ("format", .str ""), ("movements", .list []),
   ("unmapped_movements", .list []), ("notes", .str "")]

/-- C8 counterexample: a response carrying every required key is still
rejected when its components value is not a list of objects, so missing
keys are not the only cause of rejection. -/
theorem validate_counterexample :
    requiredKeys.all (fun k => (objGet demoBadResp k).isSome) = true ∧
    resultOk (validate_llm_result [] demoLabels demoBadResp) = false := by
  constructor
  · decide
  · rfl

/-- A well-typed response with one unknown movement label. -/
def demoResp : JObj :=
  [("id", .num 2), ("date", .str "2024-01-02"), ("title", .str "T"),
   ("link", .str "l"), ("is_rest_day", .bool false),
   ("components", .list [.obj [("component", .str "Strength"),
     ("details", .str "back squat 5x5")]]),
   ("component_tags", .list [.str "strength"]), ("format", .str ""),
   ("movements", .list [.str "mystery move"]),
   ("unmapped_movements", .list []), ("notes", .str "")]

theorem demoResp_wellTyped : WellTypedResp demoResp := by
  refine ⟨?_, ?_, ?_, ?_⟩
  · intro v hv
    injection hv with hv
    subst hv
    intro _
    rfl
  · intro v hv
    injection hv with hv
    subst hv
    exact Or.inl ⟨["mystery move"], rfl⟩
  · intro v hv
    injection hv with hv
    subst hv
    exact Or.inl ⟨[], rfl⟩
  · intro v hv
    injection hv with hv
    subst hv
    exact Or.inr rfl

/-- Witness instantiating the validation spec at a concrete well-typed
response: its well-typedness hypothesis holds and the rejection
equivalence follows. -/
theorem validate_spec_witness :
    WellTypedResp demoResp ∧
    (resultOk (validate_llm_result [] demoLabels demoResp) = false ↔
      (requiredKeys.any (fun k => (objGet demoResp k).isNone) ||
        !componentsOk demoResp) = true) :=
  ⟨demoResp_wellTyped,
    (validate_spec [] demoLabels demoResp demoResp_wellTyped).1⟩

end Cfa
